import Mathlib

/-!
Verification development for the tessera-pqc repository.

The Python sources are shallowly embedded here:

* `src/tessera/core/math.py` — `_bit_reverse_copy`, `PolynomialRing` and its
  NTT routines are modelled over `List ℤ` (numpy 1-D `int64` arrays become
  lists of integers, `%` becomes `Int.emod`, which agrees with Python's `%`
  for a positive modulus).  Loops become structural recursions; `while`
  loops carry a fuel argument that strictly dominates their iteration
  count, so the embedded function is total and the fuel never runs out.
* `src/tessera/hardware/memory.py` — `NonVolatileMemory` is modelled with an
  explicit object heap (`List (List ℤ)` indexed by allocation order) so that
  numpy array *identity* (aliasing) is captured: `write_checkpoint` stores a
  copy (fresh allocation), `read_checkpoint` returns the stored object id.
* `src/tessera/scheduler.py` — `AtomicTaskScheduler.run_atomic_ntt` is
  modelled as a state machine over the suspension points of the SimPy
  generator.  The only power-state reads are the `is_powered` checks at the
  top of each layer, so a power-failure schedule is abstracted as the
  boolean `pw : ℕ → Bool` (powered at the layer-ℓ check) together with the
  off-duration `offT : ℕ → ℕ` consumed while waiting for `power_restored`.

Simulated time is modelled with `ℕ` (SimPy uses floats, but the scheduler
only ever adds the constant costs 10 and 5 and the waiting times).
-/

namespace Tessera

/-! ### core/math.py -/

/-- Reverse the low `bits` bits of `i`: the value
`int(f"\x7bi:0\x7bbits\x7db\x7d"[::-1], 2)` computed by `_bit_reverse_copy`
(math.py line 14). -/
def bitRev : ℕ → ℕ → ℕ
  | 0, _ => 0
  | b+1, i => (i % 2) * 2 ^ b + bitRev b (i / 2)

/-- Fuelled helper for `bit_length`; the fuel is always at least the argument,
and `n / 2 < n` for `n > 0`, so the fuel never runs out. -/
def blAux : ℕ → ℕ → ℕ
  | 0, _ => 0
  | f+1, n => if n = 0 then 0 else blAux f (n / 2) + 1

/-- Python's `int.bit_length` (used as `n.bit_length() - 1` in math.py line 11
and scheduler.py line 83). -/
def bit_length (n : ℕ) : ℕ := blAux n n

/-- The `for i in range(n)` loop of `_bit_reverse_copy` (math.py lines 13-15):
iteration `i` performs `result[rev] = a[i]`.  `i` is the next index,
`cnt` the number of remaining iterations, `r` the result array. -/
def brcLoop (bits : ℕ) (a : List ℤ) : ℕ → ℕ → List ℤ → List ℤ
  | _, 0, r => r
  | i, cnt+1, r => brcLoop bits a (i+1) cnt (r.set (bitRev bits i) (a.getD i 0))

/-- `_bit_reverse_copy(a, n)` (math.py lines 9-16).  `np.empty_like(a)` is
modelled as a zero list of the same length; every cell below `n` is
overwritten by the loop whenever `a` has length `n`. -/
def bit_reverse_copy (a : List ℤ) (n : ℕ) : List ℤ :=
  brcLoop (bit_length n - 1) a 0 n (List.replicate a.length 0)

/-- The inner `for j in range(half)` butterfly loop of `PolynomialRing.ntt`
(math.py lines 98-104): `j` is the next offset, `cnt` the remaining
iterations, `wj` the running twiddle. -/
def ctInner (q wlen : ℤ) (strt half : ℕ) : ℕ → ℕ → ℤ → List ℤ → List ℤ
  | _, 0, _, a => a
  | j, cnt+1, wj, a =>
    let u := a.getD (strt + j) 0
    let v := a.getD (strt + j + half) 0 * wj % q
    ctInner q wlen strt half (j+1) cnt (wj * wlen % q)
      ((a.set (strt + j) ((u + v) % q)).set (strt + j + half) ((u - v) % q))

/-- The `for start in range(0, n, length)` loop of `PolynomialRing.ntt`
(math.py line 97); `cnt` is the remaining number of blocks. -/
def ctBlocks (q wlen : ℤ) (len half : ℕ) : ℕ → ℕ → List ℤ → List ℤ
  | _, 0, a => a
  | strt, cnt+1, a => ctBlocks q wlen len half (strt + len) cnt (ctInner q wlen strt half 0 half 1 a)

/-- One Cooley–Tukey butterfly stage of `PolynomialRing.ntt` for a given
`length` (math.py lines 95-104); `range(0, n, length)` has
`(n + length - 1) / length` iterations. -/
def ctStage (q wlen : ℤ) (n len : ℕ) (a : List ℤ) : List ℤ :=
  ctBlocks q wlen len (len / 2) 0 ((n + len - 1) / len) a

/-- The `while length <= n` stage loop of `PolynomialRing.ntt`
(math.py lines 93-105), with fuel; `length` doubles each iteration so fuel
`n + 1` always suffices. -/
def ctStagesW (q ω : ℤ) (n : ℕ) : ℕ → ℕ → List ℤ → List ℤ
  | 0, _, a => a
  | f+1, len, a =>
    if len ≤ n then ctStagesW q ω n f (len * 2) (ctStage q (ω ^ (n / len) % q) n len a)
    else a

/-- `PolynomialRing.ntt` (math.py lines 72-106): bit-reversal permutation
followed by the Cooley–Tukey stages.  `pow(omega, n // length, q)` is
`ω ^ (n / len) % q`. -/
def ntt (n : ℕ) (q ω : ℤ) (poly : List ℤ) : List ℤ :=
  ctStagesW q ω n (n + 1) 2 (bit_reverse_copy poly n)

/-- The inner `for j in range(half)` loop of `PolynomialRing.inv_ntt`
(math.py lines 135-141): Gentleman–Sande butterfly. -/
def gsInner (q wlen : ℤ) (strt half : ℕ) : ℕ → ℕ → ℤ → List ℤ → List ℤ
  | _, 0, _, a => a
  | j, cnt+1, wj, a =>
    let u := a.getD (strt + j) 0
    let v := a.getD (strt + j + half) 0
    gsInner q wlen strt half (j+1) cnt (wj * wlen % q)
      ((a.set (strt + j) ((u + v) % q)).set (strt + j + half) ((u - v) * wj % q))

/-- The `for start in range(0, n, length)` loop of `PolynomialRing.inv_ntt`
(math.py line 134). -/
def gsBlocks (q wlen : ℤ) (len half : ℕ) : ℕ → ℕ → List ℤ → List ℤ
  | _, 0, a => a
  | strt, cnt+1, a => gsBlocks q wlen len half (strt + len) cnt (gsInner q wlen strt half 0 half 1 a)

/-- One Gentleman–Sande stage of `PolynomialRing.inv_ntt` for a given
`length` (math.py lines 132-141). -/
def gsStage (q wlen : ℤ) (n len : ℕ) (a : List ℤ) : List ℤ :=
  gsBlocks q wlen len (len / 2) 0 ((n + len - 1) / len) a

/-- The `while length >= 2` stage loop of `PolynomialRing.inv_ntt`
(math.py lines 130-142), with fuel; `length` halves each iteration. -/
def gsStagesW (q ωinv : ℤ) (n : ℕ) : ℕ → ℕ → List ℤ → List ℤ
  | 0, _, a => a
  | f+1, len, a =>
    if 2 ≤ len then gsStagesW q ωinv n f (len / 2) (gsStage q (ωinv ^ (n / len) % q) n len a)
    else a

/-- `PolynomialRing.inv_ntt` (math.py lines 109-147):
`omega_inv = pow(omega, q - 2, q)`, Gentleman–Sande stages from `length = n`
down to 2, bit-reversal, then scaling by `n_inv = pow(n, q - 2, q)`. -/
def inv_ntt (n : ℕ) (q ω : ℤ) (poly_ntt : List ℤ) : List ℤ :=
  let ωinv := ω ^ (q - 2).toNat % q
  let a := gsStagesW q ωinv n (n + 1) n poly_ntt
  let a2 := bit_reverse_copy a n
  let ninv := (n : ℤ) ^ (q - 2).toNat % q
  a2.map (fun x => x * ninv % q)

/-- `PolynomialRing.reduce` (math.py lines 53-55): `np.mod(poly, q)`. -/
def reduce (q : ℤ) (poly : List ℤ) : List ℤ := poly.map (fun c => c % q)

/-- `PolynomialRing.add` (math.py lines 61-62): `(a + b) % q` element-wise. -/
def add (q : ℤ) (a b : List ℤ) : List ℤ := List.zipWith (fun x y => (x + y) % q) a b

/-- `PolynomialRing.sub` (math.py lines 68-69): `(a - b) % q` element-wise. -/
def sub (q : ℤ) (a b : List ℤ) : List ℤ := List.zipWith (fun x y => (x - y) % q) a b

/-- `PolynomialRing.point_mul` (math.py lines 150-164): `(a * b) % q`
element-wise. -/
def point_mul (q : ℤ) (a_ntt b_ntt : List ℤ) : List ℤ :=
  List.zipWith (fun x y => x * y % q) a_ntt b_ntt

/-- `PolynomialRing.poly_mul` (math.py lines 167-174). -/
def poly_mul (n : ℕ) (q ω : ℤ) (a b : List ℤ) : List ℤ :=
  inv_ntt n q ω (point_mul q (ntt n q ω a) (ntt n q ω b))

/-- `PolynomialRing.verify_round_trip` (math.py lines 177-180). -/
def verify_round_trip (n : ℕ) (q ω : ℤ) (poly : List ℤ) : Bool :=
  inv_ntt n q ω (ntt n q ω poly) == reduce q poly

/-- The `for g in range(2, q)` search loop of `PolynomialRing._find_omega`
(math.py lines 46-49): `g` is the next candidate and `cnt` the number of
remaining candidates. -/
def find_omega_loop (n q exp : ℕ) : ℕ → ℕ → Option ℕ
  | _, 0 => none
  | g, cnt+1 =>
    if (g ^ exp % q) ^ (n / 2) % q ≠ 1 then some (g ^ exp % q)
    else find_omega_loop n q exp (g+1) cnt

/-- `PolynomialRing._find_omega` (math.py lines 38-50).  Python failure modes
are modelled as `Except.error`: `(q - 1) % n` with `n = 0` raises
`ZeroDivisionError`; the `assert (q - 1) % n == 0` (on Python ints, hence
the check is on `(q : ℤ) - 1`) raises `AssertionError`; for `q = 0` the call
`pow(g, exp, 0)` raises `ValueError`; an exhausted loop raises the explicit
`ValueError` of line 50. -/
def find_omega (n q : ℕ) : Except String ℕ :=
  if n = 0 then .error "ZeroDivisionError: integer division or modulo by zero"
  else if ((q : ℤ) - 1) % (n : ℤ) ≠ 0 then .error "AssertionError: n must divide q-1"
  else if q = 0 then .error "ValueError: pow() 3rd argument cannot be 0"
  else
    match find_omega_loop n q ((q - 1) / n) 2 (q - 2) with
    | some om => .ok om
    | none => .error "ValueError: could not find primitive root"

/-- The state of a constructed `PolynomialRing` (math.py lines 25-35). -/
structure PolynomialRing where
  n : ℕ
  q : ℕ
  omega : ℕ
deriving DecidableEq, Repr

/-- `PolynomialRing.__init__` (math.py lines 25-35): reject `n` with
`n & (n - 1)` non-zero (note Python evaluates `0 & -1 = 0`, and ℕ
subtraction gives the same result for `n = 0`); use the hard-coded
`_OMEGA = 3061` for the default parameters `(256, 3329)`; otherwise search
with `_find_omega`. -/
def PolynomialRing.init (n q : ℕ) : Except String PolynomialRing :=
  if n &&& (n - 1) ≠ 0 then .error "ValueError: n must be a power of 2."
  else if n = 256 ∧ q = 3329 then .ok ⟨n, q, 3061⟩
  else (find_omega n q).map (fun om => ⟨n, q, om⟩)

/-! ### hardware/memory.py

numpy arrays are mutable objects, and `read_checkpoint` returns the stored
object itself, so object identity matters.  Arrays live on an explicit heap
(`heap : List (List ℤ)`, the object with id `i` has contents `heap[i]`);
`write_checkpoint` allocates a fresh object holding a copy (`data.copy()`,
memory.py line 58) while `read_checkpoint` returns the stored id unchanged
(memory.py line 68). -/

/-- Count the set bits of the low 16 bits of a word
(`bin(int(w)).count('1')` after the `np.uint16` cast, memory.py lines 27-31);
16 fuel steps cover every 16-bit word. -/
def hwBits : ℕ → ℕ → ℕ
  | 0, _ => 0
  | f+1, x => x % 2 + hwBits f (x / 2)

/-- `_hamming_weight_array` (memory.py lines 17-31): each coefficient is cast
to `np.uint16` (reduction mod 2^16, non-negative) and its bits are counted. -/
def hamming_weight_array (arr : List ℤ) : ℕ :=
  (arr.map (fun c => hwBits 16 (c % 65536).toNat)).sum

/-- `NonVolatileMemory` (memory.py lines 34-43) together with the object heap
that models numpy array identity.  `storage` maps an address to the id of
the stored array object; `leakage_trace` records `(time, hamming_weight)`
pairs. -/
structure NonVolatileMemory where
  heap : List (List ℤ)
  storage : ℤ → Option ℕ
  leakage_trace : List (ℕ × ℕ)

/-- `NonVolatileMemory.write_checkpoint` (memory.py lines 46-61): store a
*copy* of the passed array (`self.storage[address] = data.copy()`) — here, a
fresh heap object with the same contents — and append the leakage sample. -/
def NonVolatileMemory.write_checkpoint (m : NonVolatileMemory) (address : ℤ)
    (dataId : ℕ) (time : ℕ) : NonVolatileMemory :=
  let data := m.heap.getD dataId []
  { heap := m.heap ++ [data]
    storage := fun a => if a = address then some m.heap.length else m.storage a
    leakage_trace := m.leakage_trace ++ [(time, hamming_weight_array data)] }

/-- `NonVolatileMemory.read_checkpoint` (memory.py lines 64-68): return the
stored object (its id) or `none` — no copy is taken. -/
def NonVolatileMemory.read_checkpoint (m : NonVolatileMemory) (address : ℤ) : Option ℕ :=
  m.storage address

/-- A caller-side in-place element assignment `arr[i] = v` on the array
object with id `id` (numpy arrays are mutable). -/
def NonVolatileMemory.poke (m : NonVolatileMemory) (id i : ℕ) (v : ℤ) : NonVolatileMemory :=
  { m with heap := m.heap.set id ((m.heap.getD id []).set i v) }

/-! ### scheduler.py -/

/-- `AtomicTaskScheduler._STATE_ADDR = 0xFFFF` (scheduler.py line 50). -/
def STATE_ADDR : ℤ := 65535

/-- `AtomicTaskScheduler._DATA_BASE = 0x0000` (scheduler.py line 51). -/
def DATA_BASE : ℤ := 0

/-- The mutable state of one `AtomicTaskScheduler` driving one NVM, plus the
simulated clock.  `workingId` is the heap id of the `working` buffer once it
has been allocated. -/
structure SchedState where
  mem : NonVolatileMemory
  now : ℕ
  current_step : ℤ
  completed_layers : ℕ
  power_failures : ℕ
  restores : ℕ
  workingId : ℕ

/-- `AtomicTaskScheduler.__init__` counters (scheduler.py lines 63-66) over a
given NVM. -/
def initSched (m : NonVolatileMemory) : SchedState :=
  { mem := m, now := 0, current_step := 0, completed_layers := 0
    power_failures := 0, restores := 0, workingId := 0 }

/-- Simulation context for one `run_atomic_ntt` call: ring parameters and the
power behaviour.  `pw ℓ` is the value of `power.is_powered` read at the top
of layer `ℓ` (scheduler.py line 121) — the only power-state reads — and
`offT ℓ` is the waiting time spent on `yield power.power_restored` there. -/
structure SchedCtx where
  n : ℕ
  q : ℤ
  ω : ℤ
  pw : ℕ → Bool
  offT : ℕ → ℕ

/-- The startup / recovery protocol of `run_atomic_ntt`
(scheduler.py lines 88-98).  Returns the id of the array bound to
`poly_data` after the protocol (the caller's array, or the restored
checkpoint object), together with the updated state.  `int(saved_step[0])`
is modelled as `getD 0 0`. -/
def startup (s : SchedState) (inputId : ℕ) : ℕ × SchedState :=
  match s.mem.read_checkpoint STATE_ADDR with
  | none => (inputId, s)
  | some sid =>
    let k : ℤ := (s.mem.heap.getD sid []).getD 0 0
    let s1 : SchedState := { s with current_step := k }
    match s1.mem.read_checkpoint (DATA_BASE + k - 1) with
    | none => (inputId, s1)
    | some did => (did, { s1 with restores := s1.restores + 1 })

/-- `working = _bit_reverse_copy(poly_data.astype(np.int64), n)`
(scheduler.py lines 103-104): allocate a fresh working buffer. -/
def allocWorking (n : ℕ) (p : ℕ × SchedState) : SchedState :=
  { p.2 with
    mem := { p.2.mem with
             heap := p.2.mem.heap ++ [bit_reverse_copy (p.2.mem.heap.getD p.1 []) n] }
    workingId := p.2.mem.heap.length }

/-- The `while length <= n` loop building `layers`
(scheduler.py lines 108-114): the list of `(length, half, w_len)` triples. -/
def layersW (q ω : ℤ) (n : ℕ) : ℕ → ℕ → List (ℕ × ℕ × ℤ)
  | 0, _ => []
  | f+1, len =>
    if len ≤ n then (len, len / 2, ω ^ (n / len) % q) :: layersW q ω n f (len * 2)
    else []

/-- The power gate of one layer (scheduler.py lines 121-133): if unpowered,
count the failure, wait `offT ℓ`, and (for `ℓ > 0`) reload the working
buffer from the checkpoint — note `working = saved` adopts the stored
*object*, aliasing NVM storage. -/
def gatePart (c : SchedCtx) (ℓ : ℕ) (s : SchedState) : SchedState :=
  if c.pw ℓ then s
  else if 0 < ℓ then
    match s.mem.read_checkpoint (DATA_BASE + (ℓ : ℤ) - 1) with
    | some sid =>
      { s with power_failures := s.power_failures + 1, now := s.now + c.offT ℓ,
               workingId := sid, restores := s.restores + 1 }
    | none =>
      { s with power_failures := s.power_failures + 1, now := s.now + c.offT ℓ }
  else { s with power_failures := s.power_failures + 1, now := s.now + c.offT ℓ }

/-- The compute step of one layer (scheduler.py lines 135-144):
`yield env.timeout(10)` then the in-place butterfly stage on the working
buffer (the same loops as math.py lines 97-104, hence `ctBlocks`). -/
def computePart (c : SchedCtx) (lhw : ℕ × ℕ × ℤ) (s : SchedState) : SchedState :=
  let len := lhw.1
  let half := lhw.2.1
  let wlen := lhw.2.2
  let contents := s.mem.heap.getD s.workingId []
  { s with
    now := s.now + 10
    mem := { s.mem with
             heap := s.mem.heap.set s.workingId
               (ctBlocks c.q wlen len half 0 ((c.n + len - 1) / len) contents) } }

/-- The checkpoint step of one layer (scheduler.py lines 146-159):
`yield env.timeout(5)`, write the working buffer to `DATA_BASE + ℓ`, write
the fresh one-element array `[ℓ + 1]` to `STATE_ADDR`, advance
`current_step` and `completed_layers`. -/
def checkpointPart (ℓ : ℕ) (s : SchedState) : SchedState :=
  let now1 := s.now + 5
  let m1 := s.mem.write_checkpoint (DATA_BASE + (ℓ : ℤ)) s.workingId now1
  let m2 : NonVolatileMemory := { m1 with heap := m1.heap ++ [[(ℓ : ℤ) + 1]] }
  let m3 := m2.write_checkpoint STATE_ADDR m1.heap.length now1
  { s with now := now1, mem := m3, current_step := (ℓ : ℤ) + 1,
           completed_layers := s.completed_layers + 1 }

/-- One iteration of the `for layer_idx, (length, half, w_len) in
enumerate(layers)` loop (scheduler.py lines 116-159), including the
`layer_idx < current_step` skip (lines 118-119). -/
def layerStep (c : SchedCtx) (p : ℕ × (ℕ × ℕ × ℤ)) (s : SchedState) : SchedState :=
  if (p.1 : ℤ) < s.current_step then s
  else checkpointPart p.1 (computePart c p.2 (gatePart c p.1 s))

/-- `AtomicTaskScheduler.run_atomic_ntt(poly_data)` (scheduler.py
lines 69-163) for a given (non-`None`) input array object: startup
protocol, working-buffer allocation, then the per-layer loop. -/
def run_atomic_ntt (c : SchedCtx) (inputId : ℕ) (s : SchedState) : SchedState :=
  ((layersW c.q c.ω c.n (c.n + 1) 2).enum).foldl
    (fun st p => layerStep c p st) (allocWorking c.n (startup s inputId))

/-- The scheduler states visible at the suspension points inside one layer:
the wait on `power_restored` (after `power_failures += 1`), the
`timeout(10)` after the gate, the `timeout(5)` after the butterfly, and the
state left by the layer's checkpoint writes.  A skipped layer suspends
nowhere. -/
def layerStates (c : SchedCtx) (p : ℕ × (ℕ × ℕ × ℤ)) (s : SchedState) : List SchedState :=
  if (p.1 : ℤ) < s.current_step then []
  else
    let sg := gatePart c p.1 s
    let sc := computePart c p.2 sg
    (if c.pw p.1 then [] else
      [{ s with power_failures := s.power_failures + 1, now := s.now + c.offT p.1 }]) ++
      [sg, sc, checkpointPart p.1 sc]

/-- All intermediate states of the per-layer loop. -/
def scanStates (c : SchedCtx) : List (ℕ × (ℕ × ℕ × ℤ)) → SchedState → List SchedState
  | [], _ => []
  | p :: rest, s => layerStates c p s ++ scanStates c rest (layerStep c p s)

/-- All scheduler states at suspension points of one `run_atomic_ntt` call:
the state after startup and working-buffer allocation (the first
`timeout(10)` of layer `current_step` has not yet happened), then every
in-layer suspension state. -/
def allStates (c : SchedCtx) (inputId : ℕ) (s : SchedState) : List SchedState :=
  let s1 := allocWorking c.n (startup s inputId)
  s1 :: scanStates c ((layersW c.q c.ω c.n (c.n + 1) 2).enum) s1

/-- A default state (used as the out-of-range default for indexing into
`allStates`). -/
def defaultSchedState : SchedState :=
  initSched { heap := [], storage := fun _ => none, leakage_trace := [] }

/-- Loop invariant of the per-layer loop for a run that started from an NVM
with empty `storage`: after the first `j` layers, the counters have advanced
to `j`, exactly `2 j` NVM writes (leakage samples) have happened, the working
buffer is a valid length-n heap object, the data slots `0, …, j-1` hold valid
length-n blobs, and for `j ≥ 1` the state slot holds the one-element array
`[j]` in a heap object distinct from the working buffer and from every data
slot object. -/
def FreshInv (c : SchedCtx) (j : ℕ) (s : SchedState) : Prop :=
  s.current_step = (j : ℤ)
  ∧ s.completed_layers = j
  ∧ s.mem.leakage_trace.length = 2 * j
  ∧ s.workingId < s.mem.heap.length
  ∧ (s.mem.heap.getD s.workingId []).length = c.n
  ∧ (∀ k : ℕ, k < j → ∃ did, s.mem.storage (DATA_BASE + (k : ℤ)) = some did
      ∧ did < s.mem.heap.length ∧ (s.mem.heap.getD did []).length = c.n)
  ∧ (1 ≤ j → ∃ sid, s.mem.storage STATE_ADDR = some sid ∧ sid < s.mem.heap.length
      ∧ s.mem.heap.getD sid [] = [(j : ℤ)] ∧ sid ≠ s.workingId
      ∧ ∀ k : ℕ, k < j → ∀ did, s.mem.storage (DATA_BASE + (k : ℤ)) = some did
          → did ≠ sid)

/-- Counter invariant of the scheduler (claim C7): at most one restore at
startup plus one per observed power failure. -/
def CounterInv (s : SchedState) : Prop :=
  s.restores ≤ s.power_failures + 1

/-- Frame invariant of the caller's input array (claim C10): the heap object
`inputId` still holds its original contents `d`, the working buffer is a
different object, and no NVM storage cell points at the caller's object
(so no butterfly or checkpoint step can reach it). -/
def InputSafe (inputId : ℕ) (d : List ℤ) (s : SchedState) : Prop :=
  inputId < s.mem.heap.length
  ∧ s.mem.heap.getD inputId [] = d
  ∧ s.workingId ≠ inputId
  ∧ ∀ a did, s.mem.storage a = some did → did ≠ inputId

/-! ### Ring-valued mirrors of the NTT loops

The same loop structure over an arbitrary commutative ring, without the
`% q` reductions; casting `ℤ → ZMod Q` maps the concrete loops onto these. -/

/-- Mirror of `ctInner` over a commutative ring. -/
def ctInnerR {R : Type} [CommRing R] (wlen : R) (strt half : ℕ) :
    ℕ → ℕ → R → List R → List R
  | _, 0, _, a => a
  | j, cnt+1, wj, a =>
    ctInnerR wlen strt half (j+1) cnt (wj * wlen)
      ((a.set (strt + j) (a.getD (strt + j) 0 + a.getD (strt + j + half) 0 * wj)).set
        (strt + j + half) (a.getD (strt + j) 0 - a.getD (strt + j + half) 0 * wj))

/-- Mirror of `ctBlocks` over a commutative ring. -/
def ctBlocksR {R : Type} [CommRing R] (wlen : R) (len half : ℕ) :
    ℕ → ℕ → List R → List R
  | _, 0, a => a
  | strt, cnt+1, a =>
    ctBlocksR wlen len half (strt + len) cnt (ctInnerR wlen strt half 0 half 1 a)

/-- Mirror of `ctStage` over a commutative ring. -/
def ctStageR {R : Type} [CommRing R] (wlen : R) (n len : ℕ) (a : List R) : List R :=
  ctBlocksR wlen len (len / 2) 0 ((n + len - 1) / len) a

/-- Mirror of `ctStagesW` over a commutative ring. -/
def ctStagesWR {R : Type} [CommRing R] (ωc : R) (n : ℕ) : ℕ → ℕ → List R → List R
  | 0, _, a => a
  | f+1, len, a =>
    if len ≤ n then ctStagesWR ωc n f (len * 2) (ctStageR (ωc ^ (n / len)) n len a)
    else a

/-- Mirror of `gsInner` over a commutative ring. -/
def gsInnerR {R : Type} [CommRing R] (wlen : R) (strt half : ℕ) :
    ℕ → ℕ → R → List R → List R
  | _, 0, _, a => a
  | j, cnt+1, wj, a =>
    gsInnerR wlen strt half (j+1) cnt (wj * wlen)
      ((a.set (strt + j) (a.getD (strt + j) 0 + a.getD (strt + j + half) 0)).set
        (strt + j + half) ((a.getD (strt + j) 0 - a.getD (strt + j + half) 0) * wj))

/-- Mirror of `gsBlocks` over a commutative ring. -/
def gsBlocksR {R : Type} [CommRing R] (wlen : R) (len half : ℕ) :
    ℕ → ℕ → List R → List R
  | _, 0, a => a
  | strt, cnt+1, a =>
    gsBlocksR wlen len half (strt + len) cnt (gsInnerR wlen strt half 0 half 1 a)

/-- Mirror of `gsStage` over a commutative ring. -/
def gsStageR {R : Type} [CommRing R] (wlen : R) (n len : ℕ) (a : List R) : List R :=
  gsBlocksR wlen len (len / 2) 0 ((n + len - 1) / len) a

/-- Mirror of `gsStagesW` over a commutative ring. -/
def gsStagesWR {R : Type} [CommRing R] (ωinv : R) (n : ℕ) : ℕ → ℕ → List R → List R
  | 0, _, a => a
  | f+1, len, a =>
    if 2 ≤ len then gsStagesWR ωinv n f (len / 2) (gsStageR (ωinv ^ (n / len)) n len a)
    else a

/-- Cast a list of integers into `ZMod Q`. -/
def castL (Q : ℕ) (l : List ℤ) : List (ZMod Q) :=
  l.map (fun x => (Int.cast x : ZMod Q))

/-- Composition of the Cooley–Tukey stages for lengths `2^1, …, 2^t`
(innermost first), the shape into which the forward `while` loop unfolds. -/
def fwdSeg {R : Type} [CommRing R] (ωc : R) (n : ℕ) : ℕ → List R → List R
  | 0, a => a
  | t+1, a => ctStageR (ωc ^ (n / 2 ^ (t+1))) n (2 ^ (t+1)) (fwdSeg ωc n t a)

/-- Composition of the Gentleman–Sande stages for lengths `2^t, …, 2^1`
(outermost first), the shape into which the inverse `while` loop unfolds. -/
def invSeg {R : Type} [CommRing R] (w : R) (n : ℕ) : ℕ → List R → List R
  | 0, a => a
  | t+1, a => invSeg w n t (gsStageR (w ^ (n / 2 ^ (t+1))) n (2 ^ (t+1)) a)

end Tessera

namespace Tessera

/-! ### Bit-reversal arithmetic -/

theorem bitRev_lt : ∀ b i, bitRev b i < 2 ^ b := by
  intro b
  induction b with
  | zero => intro i; simp [bitRev]
  | succ b ih =>
    intro i
    have h1 := ih (i / 2)
    have h2 : i % 2 ≤ 1 := Nat.le_of_lt_succ (Nat.mod_lt _ (by norm_num))
    have h3 : i % 2 * 2 ^ b ≤ 1 * 2 ^ b := Nat.mul_le_mul_right _ h2
    have h4 : (2 : ℕ) ^ (b + 1) = 2 ^ b + 2 ^ b := by rw [pow_succ]; ring
    simp only [bitRev]
    omega

theorem bitRev_shift : ∀ c v, v < 2 ^ c → bitRev (c + 1) v = 2 * bitRev c v := by
  intro c
  induction c with
  | zero =>
    intro v hv
    interval_cases v
    simp [bitRev]
  | succ c ih =>
    intro v hv
    have hv2 : v / 2 < 2 ^ c := by
      have : (2 : ℕ) ^ (c + 1) = 2 ^ c * 2 := by rw [pow_succ]
      omega
    have hthis : v / 2 % 2 * 2 ^ c + bitRev c (v / 2 / 2) = 2 * bitRev c (v / 2) := by
      have h := ih (v / 2) hv2
      simp only [bitRev] at h
      exact h
    simp only [bitRev]
    rw [hthis, pow_succ]
    ring

theorem bitRev_topbit : ∀ c e u, e ≤ 1 → u < 2 ^ c →
    bitRev (c + 1) (e * 2 ^ c + u) = bitRev (c + 1) u + e := by
  intro c
  induction c with
  | zero =>
    intro e u he hu
    interval_cases u
    interval_cases e <;> simp [bitRev]
  | succ c ih =>
    intro e u he hu
    have hmod : (e * 2 ^ (c + 1) + u) % 2 = u % 2 := by
      have : e * 2 ^ (c + 1) = e * 2 ^ c * 2 := by rw [pow_succ]; ring
      omega
    have hdiv : (e * 2 ^ (c + 1) + u) / 2 = e * 2 ^ c + u / 2 := by
      have h : e * 2 ^ (c + 1) = e * 2 ^ c * 2 := by rw [pow_succ]; ring
      omega
    have hu2 : u / 2 < 2 ^ c := by
      have : (2 : ℕ) ^ (c + 1) = 2 ^ c * 2 := by rw [pow_succ]
      omega
    have h5 : (e * 2 ^ c + u / 2) % 2 * 2 ^ c + bitRev c ((e * 2 ^ c + u / 2) / 2)
        = u / 2 % 2 * 2 ^ c + bitRev c (u / 2 / 2) + e := by
      have h := ih e (u / 2) he hu2
      simp only [bitRev] at h
      exact h
    simp only [bitRev, hmod, hdiv]
    rw [h5]
    ring

theorem bitRev_bitRev : ∀ b i, i < 2 ^ b → bitRev b (bitRev b i) = i := by
  intro b
  induction b with
  | zero => intro i hi; interval_cases i; simp [bitRev]
  | succ b ih =>
    intro i hi
    have hs : i / 2 < 2 ^ b := by
      have : (2 : ℕ) ^ (b + 1) = 2 ^ b * 2 := by rw [pow_succ]
      omega
    have he : i % 2 ≤ 1 := Nat.le_of_lt_succ (Nat.mod_lt _ (by norm_num))
    have ht : bitRev b (i / 2) < 2 ^ b := bitRev_lt b (i / 2)
    have h1 : bitRev (b + 1) i = i % 2 * 2 ^ b + bitRev b (i / 2) := rfl
    rw [h1, bitRev_topbit b (i % 2) (bitRev b (i / 2)) he ht,
        bitRev_shift b _ ht, ih _ hs]
    omega

theorem bitRev_inj (b i j : ℕ) (hi : i < 2 ^ b) (hj : j < 2 ^ b)
    (h : bitRev b i = bitRev b j) : i = j := by
  have := congrArg (bitRev b) h
  rwa [bitRev_bitRev b i hi, bitRev_bitRev b j hj] at this

/-! ### bit_length -/

theorem blAux_fuel : ∀ n f, n ≤ f → blAux f n = blAux n n := by
  intro n
  induction n using Nat.strong_induction_on with
  | _ n ih =>
    intro f hf
    match n, f with
    | 0, 0 => rfl
    | 0, f+1 => simp [blAux]
    | n+1, f+1 =>
      simp only [blAux, if_neg (Nat.succ_ne_zero n)]
      have h1 : (n + 1) / 2 < n + 1 := Nat.div_lt_self (Nat.succ_pos n) (by norm_num)
      rw [ih ((n+1)/2) h1 f (by omega), ih ((n+1)/2) h1 n (by omega)]

theorem blAux_unfold (n f : ℕ) (hn : 0 < n) (hf : n ≤ f) :
    blAux f n = bit_length (n / 2) + 1 := by
  match f, hf with
  | 0, hf => omega
  | f'+1, hf =>
    simp only [blAux, if_neg hn.ne']
    rw [blAux_fuel (n / 2) f' (by omega)]
    rfl

theorem bit_length_two_pow : ∀ m, bit_length (2 ^ m) = m + 1 := by
  intro m
  induction m with
  | zero => rfl
  | succ m ih =>
    have h1 : bit_length (2 ^ (m + 1)) = bit_length (2 ^ (m + 1) / 2) + 1 :=
      blAux_unfold _ _ (by positivity) le_rfl
    have h2 : 2 ^ (m + 1) / 2 = 2 ^ m := by
      rw [pow_succ]; exact Nat.mul_div_cancel _ (by norm_num)
    rw [h1, h2, ih]

/-! ### List access helpers -/

theorem getD_set_self {α : Type} (l : List α) (i : ℕ) (v d : α) (h : i < l.length) :
    (l.set i v).getD i d = v := by
  simp [List.getD_eq_getElem?_getD, List.getElem?_set_self, h]

theorem getD_set_ne {α : Type} (l : List α) (i j : ℕ) (v d : α) (h : i ≠ j) :
    (l.set i v).getD j d = l.getD j d := by
  simp [List.getD_eq_getElem?_getD, List.getElem?_set_ne h]

theorem getD_append_left {α : Type} (l l2 : List α) (i : ℕ) (d : α) (h : i < l.length) :
    (l ++ l2).getD i d = l.getD i d := by
  simp [List.getD_eq_getElem?_getD, List.getElem?_append_left h]

theorem list_ext_getD {α : Type} (a b : List α) (d : α) (h : a.length = b.length)
    (h2 : ∀ i, i < a.length → a.getD i d = b.getD i d) : a = b := by
  apply List.ext_getElem h
  intro i h1 h1'
  have h3 := h2 i h1
  simpa [List.getD_eq_getElem?_getD, List.getElem?_eq_getElem, h1, h1'] using h3

theorem getD_castL (Q : ℕ) (l : List ℤ) (i : ℕ) :
    (castL Q l).getD i 0 = ((l.getD i 0 : ℤ) : ZMod Q) := by
  unfold castL
  induction l generalizing i with
  | nil => simp [List.getD]
  | cons x xs ih =>
    cases i with
    | zero => simp [List.getD]
    | succ i =>
      simp only [List.map_cons, List.getD_cons_succ]
      exact ih i

theorem length_castL (Q : ℕ) (l : List ℤ) : (castL Q l).length = l.length := by
  unfold castL
  exact List.length_map l _

end Tessera

namespace Tessera

/-! ### bit_reverse_copy characterization -/

theorem length_brcLoop (bits : ℕ) (a : List ℤ) :
    ∀ cnt i r, (brcLoop bits a i cnt r).length = r.length := by
  intro cnt
  induction cnt with
  | zero => intro i r; rfl
  | succ cnt ih =>
    intro i r
    simp only [brcLoop]
    rw [ih]
    exact List.length_set r _ _

theorem brcLoop_getD_untouched (bits : ℕ) (a : List ℤ) :
    ∀ cnt i r t, (∀ k, i ≤ k → k < i + cnt → bitRev bits k ≠ t) →
      (brcLoop bits a i cnt r).getD t 0 = r.getD t 0 := by
  intro cnt
  induction cnt with
  | zero => intro i r t _; rfl
  | succ cnt ih =>
    intro i r t h
    simp only [brcLoop]
    rw [ih (i+1) _ t (fun k hk1 hk2 => h k (by omega) (by omega))]
    exact getD_set_ne r _ t _ 0 (h i (le_refl i) (by omega))

theorem brcLoop_getD_written (bits : ℕ) (a : List ℤ) :
    ∀ cnt i r t k0, i ≤ k0 → k0 < i + cnt → bitRev bits k0 = t →
      (∀ k, i ≤ k → k < i + cnt → bitRev bits k = t → k = k0) → t < r.length →
      (brcLoop bits a i cnt r).getD t 0 = a.getD k0 0 := by
  intro cnt
  induction cnt with
  | zero => intro i r t k0 h1 h2; omega
  | succ cnt ih =>
    intro i r t k0 h1 h2 h3 h4 h5
    simp only [brcLoop]
    by_cases hk : k0 = i
    · subst hk
      rw [brcLoop_getD_untouched bits a cnt (k0+1) _ t
        (fun k hka hkb hkc => by have := h4 k (by omega) (by omega) hkc; omega)]
      rw [h3]
      exact getD_set_self r t _ 0 (h3 ▸ h5)
    · have hne : bitRev bits i ≠ t := fun hc => hk ((h4 i (le_refl i) (by omega) hc).symm ▸ rfl)
      exact ih (i+1) _ t k0 (by omega) (by omega) h3
        (fun k hka hkb hkc => h4 k (by omega) (by omega) hkc)
        (by rw [List.length_set]; exact h5)

theorem bit_reverse_copy_length (a : List ℤ) (n : ℕ) :
    (bit_reverse_copy a n).length = a.length := by
  unfold bit_reverse_copy
  rw [length_brcLoop]
  exact List.length_replicate _ _

theorem bit_reverse_copy_getD (m : ℕ) (a : List ℤ) (ha : a.length = 2 ^ m)
    (t : ℕ) (ht : t < 2 ^ m) :
    (bit_reverse_copy a (2 ^ m)).getD t 0 = a.getD (bitRev m t) 0 := by
  unfold bit_reverse_copy
  have hbits : bit_length (2 ^ m) - 1 = m := by rw [bit_length_two_pow]; omega
  rw [hbits]
  exact brcLoop_getD_written m a (2 ^ m) 0 _ t (bitRev m t) (Nat.zero_le _)
    (by have := bitRev_lt m t; omega)
    (bitRev_bitRev m t ht)
    (fun k _ hk2 hk3 =>
      calc k = bitRev m (bitRev m k) := (bitRev_bitRev m k (by omega)).symm
      _ = bitRev m t := by rw [hk3])
    (by rw [List.length_replicate]; omega)

/-! ### Casting the concrete loops to `ZMod Q` -/

theorem intCast_emod_zmod (Q : ℕ) (x : ℤ) :
    ((x % (Q : ℤ) : ℤ) : ZMod Q) = (x : ZMod Q) := by
  exact_mod_cast ZMod.intCast_mod x Q

theorem castL_set (Q : ℕ) (l : List ℤ) (i : ℕ) (v : ℤ) :
    castL Q (l.set i v) = (castL Q l).set i (Int.cast v) := by
  unfold castL
  rw [List.map_set]

theorem castL_ctInner (Q : ℕ) (wlen : ℤ) (strt half : ℕ) :
    ∀ cnt j wj a, castL Q (ctInner (Q : ℤ) wlen strt half j cnt wj a)
      = ctInnerR (Int.cast wlen) strt half j cnt (Int.cast wj) (castL Q a) := by
  intro cnt
  induction cnt with
  | zero => intro j wj a; rfl
  | succ cnt ih =>
    intro j wj a
    simp only [ctInner, ctInnerR]
    rw [ih]
    congr 1
    · rw [intCast_emod_zmod, Int.cast_mul]
    · rw [castL_set, castL_set]
      simp only [getD_castL, intCast_emod_zmod, Int.cast_add, Int.cast_sub, Int.cast_mul]

theorem castL_ctBlocks (Q : ℕ) (wlen : ℤ) (len half : ℕ) :
    ∀ cnt strt a, castL Q (ctBlocks (Q : ℤ) wlen len half strt cnt a)
      = ctBlocksR (Int.cast wlen) len half strt cnt (castL Q a) := by
  intro cnt
  induction cnt with
  | zero => intro strt a; rfl
  | succ cnt ih =>
    intro strt a
    simp only [ctBlocks, ctBlocksR]
    rw [ih, castL_ctInner]
    norm_cast

theorem castL_ctStage (Q : ℕ) (wlen : ℤ) (n len : ℕ) (a : List ℤ) :
    castL Q (ctStage (Q : ℤ) wlen n len a)
      = ctStageR (Int.cast wlen) n len (castL Q a) := by
  unfold ctStage ctStageR
  exact castL_ctBlocks Q wlen len (len / 2) _ 0 a

theorem castL_ctStagesW (Q : ℕ) (ω : ℤ) (n : ℕ) :
    ∀ f len a, castL Q (ctStagesW (Q : ℤ) ω n f len a)
      = ctStagesWR (Int.cast ω : ZMod Q) n f len (castL Q a) := by
  intro f
  induction f with
  | zero => intro len a; rfl
  | succ f ih =>
    intro len a
    simp only [ctStagesW, ctStagesWR]
    by_cases h : len ≤ n
    · rw [if_pos h, if_pos h, ih, castL_ctStage]
      rw [intCast_emod_zmod, Int.cast_pow]
    · rw [if_neg h, if_neg h]

theorem castL_gsInner (Q : ℕ) (wlen : ℤ) (strt half : ℕ) :
    ∀ cnt j wj a, castL Q (gsInner (Q : ℤ) wlen strt half j cnt wj a)
      = gsInnerR (Int.cast wlen) strt half j cnt (Int.cast wj) (castL Q a) := by
  intro cnt
  induction cnt with
  | zero => intro j wj a; rfl
  | succ cnt ih =>
    intro j wj a
    simp only [gsInner, gsInnerR]
    rw [ih]
    congr 1
    · rw [intCast_emod_zmod, Int.cast_mul]
    · rw [castL_set, castL_set]
      simp only [getD_castL, intCast_emod_zmod, Int.cast_add, Int.cast_sub, Int.cast_mul]

theorem castL_gsBlocks (Q : ℕ) (wlen : ℤ) (len half : ℕ) :
    ∀ cnt strt a, castL Q (gsBlocks (Q : ℤ) wlen len half strt cnt a)
      = gsBlocksR (Int.cast wlen) len half strt cnt (castL Q a) := by
  intro cnt
  induction cnt with
  | zero => intro strt a; rfl
  | succ cnt ih =>
    intro strt a
    simp only [gsBlocks, gsBlocksR]
    rw [ih, castL_gsInner]
    norm_cast

theorem castL_gsStage (Q : ℕ) (wlen : ℤ) (n len : ℕ) (a : List ℤ) :
    castL Q (gsStage (Q : ℤ) wlen n len a)
      = gsStageR (Int.cast wlen) n len (castL Q a) := by
  unfold gsStage gsStageR
  exact castL_gsBlocks Q wlen len (len / 2) _ 0 a

theorem castL_gsStagesW (Q : ℕ) (ωinv : ℤ) (n : ℕ) :
    ∀ f len a, castL Q (gsStagesW (Q : ℤ) ωinv n f len a)
      = gsStagesWR (Int.cast ωinv : ZMod Q) n f len (castL Q a) := by
  intro f
  induction f with
  | zero => intro len a; rfl
  | succ f ih =>
    intro len a
    simp only [gsStagesW, gsStagesWR]
    by_cases h : 2 ≤ len
    · rw [if_pos h, if_pos h, ih, castL_gsStage]
      rw [intCast_emod_zmod, Int.cast_pow]
    · rw [if_neg h, if_neg h]

end Tessera

namespace Tessera

/-! ### Pointwise characterization of a Cooley–Tukey stage -/

variable {R : Type} [CommRing R]

theorem ctInnerR_length (wlen : R) (strt half : ℕ) :
    ∀ cnt j wj a, (ctInnerR wlen strt half j cnt wj a).length = a.length := by
  intro cnt
  induction cnt with
  | zero => intro j wj a; rfl
  | succ cnt ih =>
    intro j wj a
    simp only [ctInnerR]
    rw [ih]
    simp [List.length_set]

theorem ctInnerR_untouched (wlen : R) (strt half : ℕ) :
    ∀ cnt j wj a t, (∀ j2, j ≤ j2 → j2 < j + cnt → t ≠ strt + j2 ∧ t ≠ strt + j2 + half) →
      (ctInnerR wlen strt half j cnt wj a).getD t 0 = a.getD t 0 := by
  intro cnt
  induction cnt with
  | zero => intro j wj a t _; rfl
  | succ cnt ih =>
    intro j wj a t h
    simp only [ctInnerR]
    rw [ih (j+1) _ _ t (fun j2 h1 h2 => h j2 (by omega) (by omega))]
    have h1 := h j (le_refl j) (by omega)
    rw [getD_set_ne _ _ _ _ _ (fun hc => h1.2 hc.symm),
        getD_set_ne _ _ _ _ _ (fun hc => h1.1 hc.symm)]

theorem ctInnerR_top (wlen : R) (strt half : ℕ) :
    ∀ cnt j wj a j2, j ≤ j2 → j2 < j + cnt → j + cnt ≤ half →
      strt + j2 + half < a.length →
      (ctInnerR wlen strt half j cnt wj a).getD (strt + j2) 0
        = a.getD (strt + j2) 0 + a.getD (strt + j2 + half) 0 * (wj * wlen ^ (j2 - j)) := by
  intro cnt
  induction cnt with
  | zero => intro j wj a j2 h1 h2; omega
  | succ cnt ih =>
    intro j wj a j2 h1 h2 h3 h4
    simp only [ctInnerR]
    by_cases hj : j2 = j
    · subst hj
      rw [ctInnerR_untouched wlen strt half cnt (j2+1) _ _ (strt + j2)
        (fun j3 hj1 hj2 => ⟨by omega, by omega⟩)]
      rw [getD_set_ne _ _ _ _ _ (by omega), getD_set_self _ _ _ _ (by omega)]
      simp
    · rw [ih (j+1) _ _ j2 (by omega) (by omega) (by omega)
        (by rw [List.length_set, List.length_set]; exact h4)]
      rw [getD_set_ne _ _ _ _ _ (by omega), getD_set_ne _ _ _ _ _ (by omega),
          getD_set_ne _ _ _ _ _ (by omega), getD_set_ne _ _ _ _ _ (by omega)]
      have hp : wlen ^ (j2 - j) = wlen * wlen ^ (j2 - (j + 1)) := by
        rw [show j2 - j = (j2 - (j+1)) + 1 by omega, pow_succ]
        ring
      rw [hp]
      ring

theorem ctInnerR_bot (wlen : R) (strt half : ℕ) :
    ∀ cnt j wj a j2, j ≤ j2 → j2 < j + cnt → j + cnt ≤ half →
      strt + j2 + half < a.length →
      (ctInnerR wlen strt half j cnt wj a).getD (strt + j2 + half) 0
        = a.getD (strt + j2) 0 - a.getD (strt + j2 + half) 0 * (wj * wlen ^ (j2 - j)) := by
  intro cnt
  induction cnt with
  | zero => intro j wj a j2 h1 h2; omega
  | succ cnt ih =>
    intro j wj a j2 h1 h2 h3 h4
    simp only [ctInnerR]
    by_cases hj : j2 = j
    · subst hj
      rw [ctInnerR_untouched wlen strt half cnt (j2+1) _ _ (strt + j2 + half)
        (fun j3 hj1 hj2 => ⟨by omega, by omega⟩)]
      rw [getD_set_self _ _ _ _ (by rw [List.length_set]; omega)]
      simp
    · rw [ih (j+1) _ _ j2 (by omega) (by omega) (by omega)
        (by rw [List.length_set, List.length_set]; exact h4)]
      rw [getD_set_ne _ _ _ _ _ (by omega), getD_set_ne _ _ _ _ _ (by omega),
          getD_set_ne _ _ _ _ _ (by omega), getD_set_ne _ _ _ _ _ (by omega)]
      have hp : wlen ^ (j2 - j) = wlen * wlen ^ (j2 - (j + 1)) := by
        rw [show j2 - j = (j2 - (j+1)) + 1 by omega, pow_succ]
        ring
      rw [hp]
      ring

theorem ctBlocksR_length (wlen : R) (len half : ℕ) :
    ∀ cnt strt a, (ctBlocksR wlen len half strt cnt a).length = a.length := by
  intro cnt
  induction cnt with
  | zero => intro strt a; rfl
  | succ cnt ih =>
    intro strt a
    simp only [ctBlocksR]
    rw [ih, ctInnerR_length]

theorem ctBlocksR_untouched (wlen : R) (len half : ℕ) (hl : half + half ≤ len) :
    ∀ cnt strt a t, (t < strt ∨ strt + cnt * len ≤ t) →
      (ctBlocksR wlen len half strt cnt a).getD t 0 = a.getD t 0 := by
  intro cnt
  induction cnt with
  | zero => intro strt a t _; rfl
  | succ cnt ih =>
    intro strt a t h
    have hmul : (cnt + 1) * len = len + cnt * len := by ring
    simp only [ctBlocksR]
    rw [ih (strt + len) _ t (by omega)]
    exact ctInnerR_untouched wlen strt half half 0 1 a t
      (fun j2 h1 h2 => ⟨by omega, by omega⟩)

theorem ctBlocksR_top (wlen : R) (len half : ℕ) (hl : half + half ≤ len) :
    ∀ cnt strt a b j2, b < cnt → j2 < half → strt + b * len + j2 + half < a.length →
      (ctBlocksR wlen len half strt cnt a).getD (strt + b * len + j2) 0
        = a.getD (strt + b * len + j2) 0
          + a.getD (strt + b * len + j2 + half) 0 * wlen ^ j2 := by
  intro cnt
  induction cnt with
  | zero => intro strt a b j2 h1; omega
  | succ cnt ih =>
    intro strt a b j2 h1 h2 h3
    simp only [ctBlocksR]
    match b with
    | 0 =>
      have e0 : strt + 0 * len + j2 = strt + j2 := by ring
      rw [e0] at h3 ⊢
      rw [ctBlocksR_untouched wlen len half hl cnt (strt + len) _ (strt + j2)
        (Or.inl (by omega))]
      have := ctInnerR_top wlen strt half half 0 1 a j2 (Nat.zero_le _) (by omega)
        (by omega) h3
      simpa using this
    | b'+1 =>
      have e1 : strt + (b' + 1) * len + j2 = (strt + len) + b' * len + j2 := by ring
      rw [e1] at h3 ⊢
      rw [ih (strt + len) _ b' j2 (by omega) h2
        (by rw [ctInnerR_length]; exact h3)]
      rw [ctInnerR_untouched wlen strt half half 0 1 a _
        (fun j3 hj1 hj2 => ⟨by omega, by omega⟩),
          ctInnerR_untouched wlen strt half half 0 1 a _
        (fun j3 hj1 hj2 => ⟨by omega, by omega⟩)]

theorem ctBlocksR_bot (wlen : R) (len half : ℕ) (hl : half + half ≤ len) :
    ∀ cnt strt a b j2, b < cnt → j2 < half → strt + b * len + j2 + half < a.length →
      (ctBlocksR wlen len half strt cnt a).getD (strt + b * len + j2 + half) 0
        = a.getD (strt + b * len + j2) 0
          - a.getD (strt + b * len + j2 + half) 0 * wlen ^ j2 := by
  intro cnt
  induction cnt with
  | zero => intro strt a b j2 h1; omega
  | succ cnt ih =>
    intro strt a b j2 h1 h2 h3
    simp only [ctBlocksR]
    match b with
    | 0 =>
      have e0 : strt + 0 * len + j2 = strt + j2 := by ring
      rw [e0] at h3 ⊢
      rw [ctBlocksR_untouched wlen len half hl cnt (strt + len) _ (strt + j2 + half)
        (Or.inl (by omega))]
      have := ctInnerR_bot wlen strt half half 0 1 a j2 (Nat.zero_le _) (by omega)
        (by omega) h3
      simpa using this
    | b'+1 =>
      have e1 : strt + (b' + 1) * len + j2 = (strt + len) + b' * len + j2 := by ring
      rw [e1] at h3 ⊢
      rw [ih (strt + len) _ b' j2 (by omega) h2
        (by rw [ctInnerR_length]; exact h3)]
      rw [ctInnerR_untouched wlen strt half half 0 1 a _
        (fun j3 hj1 hj2 => ⟨by omega, by omega⟩),
          ctInnerR_untouched wlen strt half half 0 1 a _
        (fun j3 hj1 hj2 => ⟨by omega, by omega⟩)]

end Tessera

namespace Tessera

/-! ### Pointwise characterization of a Gentleman–Sande stage -/

variable {R : Type} [CommRing R]

theorem gsInnerR_length (wlen : R) (strt half : ℕ) :
    ∀ cnt j wj a, (gsInnerR wlen strt half j cnt wj a).length = a.length := by
  intro cnt
  induction cnt with
  | zero => intro j wj a; rfl
  | succ cnt ih =>
    intro j wj a
    simp only [gsInnerR]
    rw [ih]
    simp [List.length_set]

theorem gsInnerR_untouched (wlen : R) (strt half : ℕ) :
    ∀ cnt j wj a t, (∀ j2, j ≤ j2 → j2 < j + cnt → t ≠ strt + j2 ∧ t ≠ strt + j2 + half) →
      (gsInnerR wlen strt half j cnt wj a).getD t 0 = a.getD t 0 := by
  intro cnt
  induction cnt with
  | zero => intro j wj a t _; rfl
  | succ cnt ih =>
    intro j wj a t h
    simp only [gsInnerR]
    rw [ih (j+1) _ _ t (fun j2 h1 h2 => h j2 (by omega) (by omega))]
    have h1 := h j (le_refl j) (by omega)
    rw [getD_set_ne _ _ _ _ _ (fun hc => h1.2 hc.symm),
        getD_set_ne _ _ _ _ _ (fun hc => h1.1 hc.symm)]

theorem gsInnerR_top (wlen : R) (strt half : ℕ) :
    ∀ cnt j wj a j2, j ≤ j2 → j2 < j + cnt → j + cnt ≤ half →
      strt + j2 + half < a.length →
      (gsInnerR wlen strt half j cnt wj a).getD (strt + j2) 0
        = a.getD (strt + j2) 0 + a.getD (strt + j2 + half) 0 := by
  intro cnt
  induction cnt with
  | zero => intro j wj a j2 h1 h2; omega
  | succ cnt ih =>
    intro j wj a j2 h1 h2 h3 h4
    simp only [gsInnerR]
    by_cases hj : j2 = j
    · subst hj
      rw [gsInnerR_untouched wlen strt half cnt (j2+1) _ _ (strt + j2)
        (fun j3 hj1 hj2 => ⟨by omega, by omega⟩)]
      rw [getD_set_ne _ _ _ _ _ (by omega), getD_set_self _ _ _ _ (by omega)]
    · rw [ih (j+1) _ _ j2 (by omega) (by omega) (by omega)
        (by rw [List.length_set, List.length_set]; exact h4)]
      rw [getD_set_ne _ _ _ _ _ (by omega), getD_set_ne _ _ _ _ _ (by omega),
          getD_set_ne _ _ _ _ _ (by omega), getD_set_ne _ _ _ _ _ (by omega)]

theorem gsInnerR_bot (wlen : R) (strt half : ℕ) :
    ∀ cnt j wj a j2, j ≤ j2 → j2 < j + cnt → j + cnt ≤ half →
      strt + j2 + half < a.length →
      (gsInnerR wlen strt half j cnt wj a).getD (strt + j2 + half) 0
        = (a.getD (strt + j2) 0 - a.getD (strt + j2 + half) 0)
          * (wj * wlen ^ (j2 - j)) := by
  intro cnt
  induction cnt with
  | zero => intro j wj a j2 h1 h2; omega
  | succ cnt ih =>
    intro j wj a j2 h1 h2 h3 h4
    simp only [gsInnerR]
    by_cases hj : j2 = j
    · subst hj
      rw [gsInnerR_untouched wlen strt half cnt (j2+1) _ _ (strt + j2 + half)
        (fun j3 hj1 hj2 => ⟨by omega, by omega⟩)]
      rw [getD_set_self _ _ _ _ (by rw [List.length_set]; omega)]
      simp
    · rw [ih (j+1) _ _ j2 (by omega) (by omega) (by omega)
        (by rw [List.length_set, List.length_set]; exact h4)]
      rw [getD_set_ne _ _ _ _ _ (by omega), getD_set_ne _ _ _ _ _ (by omega),
          getD_set_ne _ _ _ _ _ (by omega), getD_set_ne _ _ _ _ _ (by omega)]
      have hp : wlen ^ (j2 - j) = wlen * wlen ^ (j2 - (j + 1)) := by
        rw [show j2 - j = (j2 - (j+1)) + 1 by omega, pow_succ]
        ring
      rw [hp]
      ring

theorem gsBlocksR_length (wlen : R) (len half : ℕ) :
    ∀ cnt strt a, (gsBlocksR wlen len half strt cnt a).length = a.length := by
  intro cnt
  induction cnt with
  | zero => intro strt a; rfl
  | succ cnt ih =>
    intro strt a
    simp only [gsBlocksR]
    rw [ih, gsInnerR_length]

theorem gsBlocksR_untouched (wlen : R) (len half : ℕ) (hl : half + half ≤ len) :
    ∀ cnt strt a t, (t < strt ∨ strt + cnt * len ≤ t) →
      (gsBlocksR wlen len half strt cnt a).getD t 0 = a.getD t 0 := by
  intro cnt
  induction cnt with
  | zero => intro strt a t _; rfl
  | succ cnt ih =>
    intro strt a t h
    have hmul : (cnt + 1) * len = len + cnt * len := by ring
    simp only [gsBlocksR]
    rw [ih (strt + len) _ t (by omega)]
    exact gsInnerR_untouched wlen strt half half 0 1 a t
      (fun j2 h1 h2 => ⟨by omega, by omega⟩)

theorem gsBlocksR_top (wlen : R) (len half : ℕ) (hl : half + half ≤ len) :
    ∀ cnt strt a b j2, b < cnt → j2 < half → strt + b * len + j2 + half < a.length →
      (gsBlocksR wlen len half strt cnt a).getD (strt + b * len + j2) 0
        = a.getD (strt + b * len + j2) 0 + a.getD (strt + b * len + j2 + half) 0 := by
  intro cnt
  induction cnt with
  | zero => intro strt a b j2 h1; omega
  | succ cnt ih =>
    intro strt a b j2 h1 h2 h3
    simp only [gsBlocksR]
    match b with
    | 0 =>
      have e0 : strt + 0 * len + j2 = strt + j2 := by ring
      rw [e0] at h3 ⊢
      rw [gsBlocksR_untouched wlen len half hl cnt (strt + len) _ (strt + j2)
        (Or.inl (by omega))]
      exact gsInnerR_top wlen strt half half 0 1 a j2 (Nat.zero_le _) (by omega)
        (by omega) h3
    | b'+1 =>
      have e1 : strt + (b' + 1) * len + j2 = (strt + len) + b' * len + j2 := by ring
      rw [e1] at h3 ⊢
      rw [ih (strt + len) _ b' j2 (by omega) h2
        (by rw [gsInnerR_length]; exact h3)]
      rw [gsInnerR_untouched wlen strt half half 0 1 a _
        (fun j3 hj1 hj2 => ⟨by omega, by omega⟩),
          gsInnerR_untouched wlen strt half half 0 1 a _
        (fun j3 hj1 hj2 => ⟨by omega, by omega⟩)]

theorem gsBlocksR_bot (wlen : R) (len half : ℕ) (hl : half + half ≤ len) :
    ∀ cnt strt a b j2, b < cnt → j2 < half → strt + b * len + j2 + half < a.length →
      (gsBlocksR wlen len half strt cnt a).getD (strt + b * len + j2 + half) 0
        = (a.getD (strt + b * len + j2) 0 - a.getD (strt + b * len + j2 + half) 0)
          * wlen ^ j2 := by
  intro cnt
  induction cnt with
  | zero => intro strt a b j2 h1; omega
  | succ cnt ih =>
    intro strt a b j2 h1 h2 h3
    simp only [gsBlocksR]
    match b with
    | 0 =>
      have e0 : strt + 0 * len + j2 = strt + j2 := by ring
      rw [e0] at h3 ⊢
      rw [gsBlocksR_untouched wlen len half hl cnt (strt + len) _ (strt + j2 + half)
        (Or.inl (by omega))]
      have := gsInnerR_bot wlen strt half half 0 1 a j2 (Nat.zero_le _) (by omega)
        (by omega) h3
      simpa using this
    | b'+1 =>
      have e1 : strt + (b' + 1) * len + j2 = (strt + len) + b' * len + j2 := by ring
      rw [e1] at h3 ⊢
      rw [ih (strt + len) _ b' j2 (by omega) h2
        (by rw [gsInnerR_length]; exact h3)]
      rw [gsInnerR_untouched wlen strt half half 0 1 a _
        (fun j3 hj1 hj2 => ⟨by omega, by omega⟩),
          gsInnerR_untouched wlen strt half half 0 1 a _
        (fun j3 hj1 hj2 => ⟨by omega, by omega⟩)]

end Tessera

namespace Tessera

variable {R : Type} [CommRing R]

theorem getD_map_mul (c : R) (l : List R) (i : ℕ) :
    (l.map (fun x => c * x)).getD i 0 = c * l.getD i 0 := by
  induction l generalizing i with
  | nil => simp [List.getD]
  | cons x xs ih =>
    cases i with
    | zero => simp [List.getD]
    | succ i =>
      simp only [List.map_cons, List.getD_cons_succ]
      exact ih i

theorem ctStageR_length (wlen : R) (n len : ℕ) (a : List R) :
    (ctStageR wlen n len a).length = a.length :=
  ctBlocksR_length wlen len (len / 2) _ 0 a

theorem gsStageR_length (wlen : R) (n len : ℕ) (a : List R) :
    (gsStageR wlen n len a).length = a.length :=
  gsBlocksR_length wlen len (len / 2) _ 0 a

theorem stage_cnt_eq (n len : ℕ) (h2 : 2 ≤ len) (hdvd : len ∣ n) :
    (n + len - 1) / len = n / len := by
  obtain ⟨k, hk⟩ := hdvd
  subst hk
  have hlpos : 0 < len := by omega
  have h9 : len * k + len - 1 = len * k + (len - 1) := by omega
  rw [h9, Nat.mul_add_div hlpos, Nat.div_eq_of_lt (by omega),
      Nat.mul_div_cancel_left _ hlpos]
  omega

theorem ctStageR_getD (wlen : R) (n len : ℕ) (h2 : 2 ≤ len) (he : len % 2 = 0)
    (hdvd : len ∣ n) (a : List R) (ha : a.length = n) (i : ℕ) (hi : i < n) :
    (ctStageR wlen n len a).getD i 0
      = if i % len < len / 2
        then a.getD i 0 + a.getD (i + len / 2) 0 * wlen ^ (i % len)
        else a.getD (i - len / 2) 0 - a.getD i 0 * wlen ^ (i % len - len / 2) := by
  have hlpos : 0 < len := by omega
  obtain ⟨k, hk⟩ := hdvd
  have hbj : len * (i / len) + i % len = i := Nat.div_add_mod i len
  have hcm : len * (i / len) = (i / len) * len := Nat.mul_comm _ _
  have hjlt : i % len < len := Nat.mod_lt i hlpos
  have hblt : i / len < k := by
    have h5 := Nat.div_lt_div_of_lt_of_dvd ⟨k, hk⟩ hi
    rwa [hk, Nat.mul_div_cancel_left _ hlpos] at h5
  have hup : (i / len) * len + len ≤ n := by
    have h8 : (i / len + 1) * len ≤ k * len := Nat.mul_le_mul_right len (by omega)
    have h9 : k * len = n := by rw [hk]; ring
    have h10 : (i / len + 1) * len = (i / len) * len + len := by ring
    omega
  unfold ctStageR
  rw [stage_cnt_eq n len h2 ⟨k, hk⟩, hk, Nat.mul_div_cancel_left _ hlpos]
  by_cases hc : i % len < len / 2
  · rw [if_pos hc]
    have htop := ctBlocksR_top wlen len (len / 2) (by omega) k 0 a (i / len) (i % len)
      hblt hc (by rw [ha]; omega)
    rw [show 0 + i / len * len + i % len = i by omega] at htop
    exact htop
  · rw [if_neg hc]
    have hbot := ctBlocksR_bot wlen len (len / 2) (by omega) k 0 a (i / len)
      (i % len - len / 2) hblt (by omega) (by rw [ha]; omega)
    rw [show 0 + i / len * len + (i % len - len / 2) = i - len / 2 by omega] at hbot
    rw [show i - len / 2 + len / 2 = i by omega] at hbot
    exact hbot

theorem gsStageR_getD (wlen : R) (n len : ℕ) (h2 : 2 ≤ len) (he : len % 2 = 0)
    (hdvd : len ∣ n) (a : List R) (ha : a.length = n) (i : ℕ) (hi : i < n) :
    (gsStageR wlen n len a).getD i 0
      = if i % len < len / 2
        then a.getD i 0 + a.getD (i + len / 2) 0
        else (a.getD (i - len / 2) 0 - a.getD i 0) * wlen ^ (i % len - len / 2) := by
  have hlpos : 0 < len := by omega
  obtain ⟨k, hk⟩ := hdvd
  have hbj : len * (i / len) + i % len = i := Nat.div_add_mod i len
  have hcm : len * (i / len) = (i / len) * len := Nat.mul_comm _ _
  have hjlt : i % len < len := Nat.mod_lt i hlpos
  have hblt : i / len < k := by
    have h5 := Nat.div_lt_div_of_lt_of_dvd ⟨k, hk⟩ hi
    rwa [hk, Nat.mul_div_cancel_left _ hlpos] at h5
  have hup : (i / len) * len + len ≤ n := by
    have h8 : (i / len + 1) * len ≤ k * len := Nat.mul_le_mul_right len (by omega)
    have h9 : k * len = n := by rw [hk]; ring
    have h10 : (i / len + 1) * len = (i / len) * len + len := by ring
    omega
  unfold gsStageR
  rw [stage_cnt_eq n len h2 ⟨k, hk⟩, hk, Nat.mul_div_cancel_left _ hlpos]
  by_cases hc : i % len < len / 2
  · rw [if_pos hc]
    have htop := gsBlocksR_top wlen len (len / 2) (by omega) k 0 a (i / len) (i % len)
      hblt hc (by rw [ha]; omega)
    rw [show 0 + i / len * len + i % len = i by omega] at htop
    exact htop
  · rw [if_neg hc]
    have hbot := gsBlocksR_bot wlen len (len / 2) (by omega) k 0 a (i / len)
      (i % len - len / 2) hblt (by omega) (by rw [ha]; omega)
    rw [show 0 + i / len * len + (i % len - len / 2) = i - len / 2 by omega] at hbot
    rw [show i - len / 2 + len / 2 = i by omega] at hbot
    exact hbot

theorem gs_ct_cancel (wl wi : R) (hinv : wl * wi = 1) (n len : ℕ) (h2 : 2 ≤ len)
    (he : len % 2 = 0) (hdvd : len ∣ n) (a : List R) (ha : a.length = n) :
    gsStageR wi n len (ctStageR wl n len a) = a.map (fun x => 2 * x) := by
  have hlpos : 0 < len := by omega
  have hBlen : (ctStageR wl n len a).length = n := by rw [ctStageR_length, ha]
  apply list_ext_getD _ _ (0 : R)
  · rw [gsStageR_length, hBlen, List.length_map, ha]
  · intro i hilen
    have hi : i < n := by rwa [gsStageR_length, hBlen] at hilen
    have hgs := gsStageR_getD wi n len h2 he hdvd _ hBlen i hi
    rw [hgs, getD_map_mul]
    have hbj : len * (i / len) + i % len = i := Nat.div_add_mod i len
    have hcm : len * (i / len) = (i / len) * len := Nat.mul_comm _ _
    have hjlt : i % len < len := Nat.mod_lt i hlpos
    obtain ⟨k, hk⟩ := hdvd
    have hblt : i / len < k := by
      have h5 := Nat.div_lt_div_of_lt_of_dvd ⟨k, hk⟩ hi
      rwa [hk, Nat.mul_div_cancel_left _ hlpos] at h5
    have hup : (i / len) * len + len ≤ n := by
      have h8 : (i / len + 1) * len ≤ k * len := Nat.mul_le_mul_right len (by omega)
      have h9 : k * len = n := by rw [hk]; ring
      have h10 : (i / len + 1) * len = (i / len) * len + len := by ring
      omega
    by_cases hc : i % len < len / 2
    · rw [if_pos hc]
      have hih : i + len / 2 < n := by omega
      have hmod2 : (i + len / 2) % len = i % len + len / 2 := by
        have h6 : i + len / 2 = len * (i / len) + (i % len + len / 2) := by omega
        rw [h6, Nat.mul_add_mod, Nat.mod_eq_of_lt (by omega)]
      have hA := ctStageR_getD wl n len h2 he ⟨k, hk⟩ a ha i hi
      have hB := ctStageR_getD wl n len h2 he ⟨k, hk⟩ a ha (i + len / 2) hih
      rw [if_pos hc] at hA
      rw [hmod2, if_neg (by omega)] at hB
      rw [show i + len / 2 - len / 2 = i by omega,
          show i % len + len / 2 - len / 2 = i % len by omega] at hB
      rw [hA, hB]
      ring
    · rw [if_neg hc]
      have hil : len / 2 ≤ i := by omega
      have hilo : i - len / 2 < n := by omega
      have hmod2 : (i - len / 2) % len = i % len - len / 2 := by
        have h6 : i - len / 2 = len * (i / len) + (i % len - len / 2) := by omega
        rw [h6, Nat.mul_add_mod, Nat.mod_eq_of_lt (by omega)]
      have hA := ctStageR_getD wl n len h2 he ⟨k, hk⟩ a ha (i - len / 2) hilo
      have hB := ctStageR_getD wl n len h2 he ⟨k, hk⟩ a ha i hi
      rw [hmod2, if_pos (by omega)] at hA
      rw [show i - len / 2 + len / 2 = i by omega] at hA
      rw [if_neg hc] at hB
      rw [hA, hB]
      have hexp : (a.getD (i - len / 2) 0 + a.getD i 0 * wl ^ (i % len - len / 2)
          - (a.getD (i - len / 2) 0 - a.getD i 0 * wl ^ (i % len - len / 2)))
          * wi ^ (i % len - len / 2)
          = 2 * a.getD i 0 * (wl ^ (i % len - len / 2) * wi ^ (i % len - len / 2)) := by
        ring
      rw [hexp, ← mul_pow, hinv, one_pow, mul_one]

theorem gsStageR_map_smul (wlen : R) (n len : ℕ) (h2 : 2 ≤ len) (he : len % 2 = 0)
    (hdvd : len ∣ n) (c : R) (a : List R) (ha : a.length = n) :
    gsStageR wlen n len (a.map (fun x => c * x))
      = (gsStageR wlen n len a).map (fun x => c * x) := by
  have hmlen : (a.map (fun x => c * x)).length = n := by rw [List.length_map, ha]
  apply list_ext_getD _ _ (0 : R)
  · rw [gsStageR_length, hmlen, List.length_map, gsStageR_length, ha]
  · intro i hilen
    have hi : i < n := by rwa [gsStageR_length, hmlen] at hilen
    rw [gsStageR_getD wlen n len h2 he hdvd _ hmlen i hi,
        getD_map_mul c (gsStageR wlen n len a) i,
        gsStageR_getD wlen n len h2 he hdvd a ha i hi]
    by_cases hc : i % len < len / 2
    · rw [if_pos hc, if_pos hc, getD_map_mul, getD_map_mul]
      ring
    · rw [if_neg hc, if_neg hc, getD_map_mul, getD_map_mul]
      ring

end Tessera

namespace Tessera

variable {R : Type} [CommRing R]

theorem fwdSeg_length (ωc : R) (n : ℕ) : ∀ t a, (fwdSeg ωc n t a).length = a.length := by
  intro t
  induction t with
  | zero => intro a; rfl
  | succ t ih =>
    intro a
    simp only [fwdSeg]
    rw [ctStageR_length, ih]

theorem invSeg_length (w : R) (n : ℕ) : ∀ t a, (invSeg w n t a).length = a.length := by
  intro t
  induction t with
  | zero => intro a; rfl
  | succ t ih =>
    intro a
    simp only [invSeg]
    rw [ih, gsStageR_length]

theorem ctStagesWR_length (ωc : R) (n : ℕ) :
    ∀ f len a, (ctStagesWR ωc n f len a).length = a.length := by
  intro f
  induction f with
  | zero => intro len a; rfl
  | succ f ih =>
    intro len a
    simp only [ctStagesWR]
    by_cases h : len ≤ n
    · rw [if_pos h, ih, ctStageR_length]
    · rw [if_neg h]

theorem gsStagesWR_length (w : R) (n : ℕ) :
    ∀ f len a, (gsStagesWR w n f len a).length = a.length := by
  intro f
  induction f with
  | zero => intro len a; rfl
  | succ f ih =>
    intro len a
    simp only [gsStagesWR]
    by_cases h : 2 ≤ len
    · rw [if_pos h, ih, gsStageR_length]
    · rw [if_neg h]

theorem two_le_two_pow_succ (t : ℕ) : 2 ≤ 2 ^ (t + 1) := by
  have h := Nat.pow_le_pow_right (show 0 < 2 by norm_num) (show 1 ≤ t + 1 by omega)
  simpa using h

theorem two_pow_succ_even (t : ℕ) : 2 ^ (t + 1) % 2 = 0 := by
  have h : (2 : ℕ) ^ (t + 1) = 2 ^ t * 2 := by rw [pow_succ]
  omega

theorem invSeg_map_smul (w : R) (m : ℕ) (c : R) :
    ∀ t, t ≤ m → ∀ a : List R, a.length = 2 ^ m →
      invSeg w (2 ^ m) t (a.map (fun x => c * x))
        = (invSeg w (2 ^ m) t a).map (fun x => c * x) := by
  intro t
  induction t with
  | zero => intro _ a _; rfl
  | succ t ih =>
    intro ht a ha
    simp only [invSeg]
    rw [gsStageR_map_smul _ _ _ (two_le_two_pow_succ t) (two_pow_succ_even t)
      (pow_dvd_pow 2 (by omega)) c a ha]
    rw [ih (by omega) _ (by rw [gsStageR_length, ha])]

theorem invSeg_fwdSeg (wl wi : R) (hinv : wl * wi = 1) (m : ℕ) :
    ∀ t, t ≤ m → ∀ a : List R, a.length = 2 ^ m →
      invSeg wi (2 ^ m) t (fwdSeg wl (2 ^ m) t a)
        = a.map (fun x => (2 : R) ^ t * x) := by
  intro t
  induction t with
  | zero =>
    intro _ a _
    show a = a.map (fun x => (2 : R) ^ 0 * x)
    simp
  | succ t ih =>
    intro ht a ha
    simp only [invSeg, fwdSeg]
    rw [gs_ct_cancel (wl ^ (2 ^ m / 2 ^ (t + 1))) (wi ^ (2 ^ m / 2 ^ (t + 1)))
      (by rw [← mul_pow, hinv, one_pow]) (2 ^ m) (2 ^ (t + 1))
      (two_le_two_pow_succ t) (two_pow_succ_even t) (pow_dvd_pow 2 (by omega))
      _ (by rw [fwdSeg_length, ha])]
    rw [invSeg_map_smul wi m 2 t (by omega) _ (by rw [fwdSeg_length, ha])]
    rw [ih (by omega) a ha, List.map_map]
    congr 1
    funext x
    simp only [Function.comp]
    rw [pow_succ]
    ring

theorem ctStagesWR_bridge (ωc : R) (m : ℕ) :
    ∀ s t f a, t + s = m → s < f →
      ctStagesWR ωc (2 ^ m) f (2 ^ (t + 1)) (fwdSeg ωc (2 ^ m) t a)
        = fwdSeg ωc (2 ^ m) m a := by
  intro s
  induction s with
  | zero =>
    intro t f a ht hf
    match f, hf with
    | f'+1, _ =>
      simp only [ctStagesWR]
      rw [if_neg]
      · rw [show t = m by omega]
      · have h1 : (2 : ℕ) ^ m < 2 ^ (t + 1) := by
          have h2 : m < t + 1 := by omega
          exact Nat.pow_lt_pow_right (by norm_num) h2
        omega
  | succ s ih =>
    intro t f a ht hf
    match f, hf with
    | f'+1, _ =>
      simp only [ctStagesWR]
      rw [if_pos (Nat.pow_le_pow_right (by norm_num) (by omega))]
      have h1 : 2 ^ (t + 1) * 2 = 2 ^ (t + 2) := by rw [← pow_succ]
      rw [h1]
      exact ih (t + 1) f' a (by omega) (by omega)

theorem gsStagesWR_bridge (w : R) (m : ℕ) :
    ∀ t f a, t < f → gsStagesWR w (2 ^ m) f (2 ^ t) a = invSeg w (2 ^ m) t a := by
  intro t
  induction t with
  | zero =>
    intro f a hf
    match f, hf with
    | f'+1, _ =>
      simp only [gsStagesWR, pow_zero]
      rw [if_neg (by omega)]
      rfl
  | succ t ih =>
    intro f a hf
    match f, hf with
    | f'+1, _ =>
      simp only [gsStagesWR]
      rw [if_pos (two_le_two_pow_succ t)]
      have h1 : 2 ^ (t + 1) / 2 = 2 ^ t := by
        rw [pow_succ]
        exact Nat.mul_div_cancel _ (by norm_num)
      rw [h1]
      exact ih f' _ (by omega)

/-! ### Length of the concrete transforms -/

theorem ntt_length (Q : ℕ) (ω : ℤ) (n : ℕ) (x : List ℤ) :
    (ntt n (Q : ℤ) ω x).length = x.length := by
  unfold ntt
  rw [← length_castL Q, castL_ctStagesW, ctStagesWR_length, length_castL,
      bit_reverse_copy_length]

theorem gsStagesW_length (Q : ℕ) (wi : ℤ) (n f len : ℕ) (y : List ℤ) :
    (gsStagesW (Q : ℤ) wi n f len y).length = y.length := by
  rw [← length_castL Q, castL_gsStagesW, gsStagesWR_length, length_castL]

theorem getD_map_mulmod (c q : ℤ) (l : List ℤ) (i : ℕ) :
    (l.map (fun x => x * c % q)).getD i 0 = l.getD i 0 * c % q := by
  induction l generalizing i with
  | nil => simp [List.getD]
  | cons x xs ih =>
    cases i with
    | zero => simp [List.getD]
    | succ i =>
      simp only [List.map_cons, List.getD_cons_succ]
      exact ih i

theorem inv_ntt_length (Q : ℕ) (ω : ℤ) (n : ℕ) (y : List ℤ) :
    (inv_ntt n (Q : ℤ) ω y).length = y.length := by
  show ((bit_reverse_copy (gsStagesW (Q : ℤ) ((ω ^ ((Q : ℤ) - 2).toNat) % (Q : ℤ)) n
    (n + 1) n y) n).map
      (fun x => x * ((n : ℤ) ^ ((Q : ℤ) - 2).toNat % (Q : ℤ)) % (Q : ℤ))).length = y.length
  rw [List.length_map, bit_reverse_copy_length, gsStagesW_length]

theorem int_eq_of_cast_eq (Q : ℕ) (x y : ℤ) (hx1 : 0 ≤ x) (hx2 : x < (Q : ℤ))
    (hy1 : 0 ≤ y) (hy2 : y < (Q : ℤ)) (h : (x : ZMod Q) = (y : ZMod Q)) : x = y := by
  have h3 := (ZMod.intCast_eq_intCast_iff' x y Q).mp h
  have h1 : x % (Q : ℤ) = x := Int.emod_eq_of_lt hx1 hx2
  have h2 : y % (Q : ℤ) = y := Int.emod_eq_of_lt hy1 hy2
  omega

end Tessera

namespace Tessera

/-- The forward transform, seen in `ZMod Q`: the `while` loop unfolds into the
stage composition `fwdSeg`. -/
theorem castL_ntt_eq_fwdSeg (m Q : ℕ) (ω : ℤ) (x : List ℤ) :
    castL Q (ntt (2 ^ m) (Q : ℤ) ω x)
      = fwdSeg (Int.cast ω : ZMod Q) (2 ^ m) m (castL Q (bit_reverse_copy x (2 ^ m))) := by
  show castL Q (ctStagesW (Q : ℤ) ω (2 ^ m) (2 ^ m + 1) 2 (bit_reverse_copy x (2 ^ m))) = _
  rw [castL_ctStagesW]
  have hb := ctStagesWR_bridge (Int.cast ω : ZMod Q) m m 0 (2 ^ m + 1)
    (castL Q (bit_reverse_copy x (2 ^ m))) (by omega)
    (by have := Nat.lt_two_pow m; omega)
  simpa [fwdSeg] using hb

/-- Round trip of the embedded `ntt` / `inv_ntt` for any power-of-two length
and any modulus and root satisfying the two Fermat-inverse equations that the
implementation relies on. -/
theorem ntt_roundtrip_general (m Q : ℕ) (hQ : 0 < Q) (ω : ℤ)
    (hω : (Int.cast ω : ZMod Q) * (Int.cast ω : ZMod Q) ^ ((Q : ℤ) - 2).toNat = 1)
    (hn : ((2 ^ m : ℕ) : ZMod Q) * ((2 ^ m : ℕ) : ZMod Q) ^ ((Q : ℤ) - 2).toNat = 1)
    (x : List ℤ) (hx : x.length = 2 ^ m)
    (hrange : ∀ i, i < 2 ^ m → 0 ≤ x.getD i 0 ∧ x.getD i 0 < (Q : ℤ)) :
    inv_ntt (2 ^ m) (Q : ℤ) ω (ntt (2 ^ m) (Q : ℤ) ω x) = x := by
  have hylen : (ntt (2 ^ m) (Q : ℤ) ω x).length = 2 ^ m := by rw [ntt_length, hx]
  have ha1len : (gsStagesW (Q : ℤ) (ω ^ ((Q : ℤ) - 2).toNat % (Q : ℤ)) (2 ^ m)
      (2 ^ m + 1) (2 ^ m) (ntt (2 ^ m) (Q : ℤ) ω x)).length = 2 ^ m := by
    rw [gsStagesW_length, hylen]
  have ha1cast : castL Q (gsStagesW (Q : ℤ) (ω ^ ((Q : ℤ) - 2).toNat % (Q : ℤ)) (2 ^ m)
      (2 ^ m + 1) (2 ^ m) (ntt (2 ^ m) (Q : ℤ) ω x))
      = (castL Q (bit_reverse_copy x (2 ^ m))).map (fun t => (2 : ZMod Q) ^ m * t) := by
    rw [castL_gsStagesW]
    have hbg := gsStagesWR_bridge
      (Int.cast (ω ^ ((Q : ℤ) - 2).toNat % (Q : ℤ)) : ZMod Q) m m (2 ^ m + 1)
      (castL Q (ntt (2 ^ m) (Q : ℤ) ω x)) (by have := Nat.lt_two_pow m; omega)
    rw [hbg, castL_ntt_eq_fwdSeg]
    have hwi : (Int.cast (ω ^ ((Q : ℤ) - 2).toNat % (Q : ℤ)) : ZMod Q)
        = (Int.cast ω : ZMod Q) ^ ((Q : ℤ) - 2).toNat := by
      rw [intCast_emod_zmod, Int.cast_pow]
    rw [hwi]
    exact invSeg_fwdSeg _ _ hω m m le_rfl _
      (by rw [length_castL, bit_reverse_copy_length, hx])
  show (bit_reverse_copy (gsStagesW (Q : ℤ) (ω ^ ((Q : ℤ) - 2).toNat % (Q : ℤ)) (2 ^ m)
      (2 ^ m + 1) (2 ^ m) (ntt (2 ^ m) (Q : ℤ) ω x)) (2 ^ m)).map
        (fun t => t * (((2 ^ m : ℕ) : ℤ) ^ ((Q : ℤ) - 2).toNat % (Q : ℤ)) % (Q : ℤ)) = x
  apply list_ext_getD _ _ (0 : ℤ)
  · rw [List.length_map, bit_reverse_copy_length, ha1len, hx]
  · intro i hlen2
    have hi : i < 2 ^ m := by
      rwa [List.length_map, bit_reverse_copy_length, ha1len] at hlen2
    rw [getD_map_mulmod]
    have hQz : (0 : ℤ) < (Q : ℤ) := by exact_mod_cast hQ
    apply int_eq_of_cast_eq Q _ _ (Int.emod_nonneg _ (by omega))
      (Int.emod_lt_of_pos _ hQz) (hrange i hi).1 (hrange i hi).2
    rw [intCast_emod_zmod, Int.cast_mul]
    rw [bit_reverse_copy_getD m _ ha1len i hi]
    have hr : bitRev m i < 2 ^ m := bitRev_lt m i
    have h7 := (getD_castL Q (gsStagesW (Q : ℤ) (ω ^ ((Q : ℤ) - 2).toNat % (Q : ℤ))
      (2 ^ m) (2 ^ m + 1) (2 ^ m) (ntt (2 ^ m) (Q : ℤ) ω x)) (bitRev m i)).symm
    rw [h7, ha1cast, getD_map_mul, getD_castL,
        bit_reverse_copy_getD m x hx _ hr, bitRev_bitRev m i hi]
    have h8 : (Int.cast (((2 ^ m : ℕ) : ℤ) ^ ((Q : ℤ) - 2).toNat % (Q : ℤ)) : ZMod Q)
        = ((2 ^ m : ℕ) : ZMod Q) ^ ((Q : ℤ) - 2).toNat := by
      rw [intCast_emod_zmod, Int.cast_pow]
      norm_cast
    rw [h8]
    have h9 : ((2 : ZMod Q)) ^ m = ((2 ^ m : ℕ) : ZMod Q) := by push_cast; ring
    rw [h9]
    calc ((2 ^ m : ℕ) : ZMod Q) * Int.cast (x.getD i 0)
          * (((2 ^ m : ℕ) : ZMod Q) ^ ((Q : ℤ) - 2).toNat)
        = Int.cast (x.getD i 0)
          * (((2 ^ m : ℕ) : ZMod Q) * ((2 ^ m : ℕ) : ZMod Q) ^ ((Q : ℤ) - 2).toNat) := by
          ring
      _ = Int.cast (x.getD i 0) := by rw [hn, mul_one]

end Tessera

namespace Tessera

/-- C1: For every length-256 integer vector `x` with all entries in
[0, 3329), applying the forward NTT and then the inverse NTT of the default
`PolynomialRing` (n = 256, q = 3329, ω = 3061) returns `x`:
`inv_ntt(ntt(x)) == x`. -/
theorem zmod3329_fermat (a : ZMod 3329) (ha : a ≠ 0) : a * a ^ 3327 = 1 := by
  haveI hfact : Fact (Nat.Prime 3329) := ⟨by norm_num⟩
  have h1 : a ^ 3328 = 1 := ZMod.pow_card_sub_one_eq_one ha
  rw [show (3328 : ℕ) = 3327 + 1 from rfl, pow_succ] at h1
  rw [mul_comm]
  exact h1

theorem C1_ntt_inv_ntt_roundtrip (x : List ℤ) (hx : x.length = 256)
    (hrange : ∀ i, i < 256 → 0 ≤ x.getD i 0 ∧ x.getD i 0 < 3329) :
    inv_ntt 256 3329 3061 (ntt 256 3329 3061 x) = x := by
  have he : ((((3329 : ℕ) : ℤ)) - 2).toNat = 3327 := by decide
  have hω : (Int.cast (3061 : ℤ) : ZMod 3329)
      * (Int.cast (3061 : ℤ) : ZMod 3329) ^ (((3329 : ℕ) : ℤ) - 2).toNat = 1 := by
    rw [he]
    have hcast : (Int.cast (3061 : ℤ) : ZMod 3329) = (3061 : ZMod 3329) := by norm_num
    rw [hcast]
    exact zmod3329_fermat _ (by decide)
  have hn : ((2 ^ 8 : ℕ) : ZMod 3329)
      * ((2 ^ 8 : ℕ) : ZMod 3329) ^ (((3329 : ℕ) : ℤ) - 2).toNat = 1 := by
    rw [he]
    have hcast : ((2 ^ 8 : ℕ) : ZMod 3329) = (256 : ZMod 3329) := by norm_num
    rw [hcast]
    exact zmod3329_fermat _ (by decide)
  have e1 : (256 : ℕ) = 2 ^ 8 := by norm_num
  have e2 : (3329 : ℤ) = ((3329 : ℕ) : ℤ) := by norm_num
  rw [e1, e2]
  exact ntt_roundtrip_general 8 3329 (by norm_num) 3061 hω hn x (by omega)
    (fun i hi => ⟨(hrange i (by omega)).1, by
      have := (hrange i (by omega)).2
      omega⟩)

set_option maxRecDepth 8000 in
/-- Witness for C1 at the all-zero polynomial. -/
theorem C1_ntt_inv_ntt_roundtrip_witness :
    inv_ntt 256 3329 3061 (ntt 256 3329 3061 (List.replicate 256 0))
      = List.replicate 256 0 :=
  C1_ntt_inv_ntt_roundtrip (List.replicate 256 0) (by rw [List.length_replicate])
    (by decide)

end Tessera

namespace Tessera

/-! ### Output range of the concrete loops -/

theorem ctInner_untouched (q wlen : ℤ) (strt half : ℕ) :
    ∀ cnt j wj a t, (∀ j2, j ≤ j2 → j2 < j + cnt → t ≠ strt + j2 ∧ t ≠ strt + j2 + half) →
      (ctInner q wlen strt half j cnt wj a).getD t 0 = a.getD t 0 := by
  intro cnt
  induction cnt with
  | zero => intro j wj a t _; rfl
  | succ cnt ih =>
    intro j wj a t h
    simp only [ctInner]
    rw [ih (j+1) _ _ t (fun j2 h1 h2 => h j2 (by omega) (by omega))]
    have h1 := h j (le_refl j) (by omega)
    rw [getD_set_ne _ _ _ _ _ (fun hc => h1.2 hc.symm),
        getD_set_ne _ _ _ _ _ (fun hc => h1.1 hc.symm)]

theorem ctInner_length (q wlen : ℤ) (strt half : ℕ) :
    ∀ cnt j wj a, (ctInner q wlen strt half j cnt wj a).length = a.length := by
  intro cnt
  induction cnt with
  | zero => intro j wj a; rfl
  | succ cnt ih =>
    intro j wj a
    simp only [ctInner]
    rw [ih]
    simp [List.length_set]

theorem ctInner_range (q wlen : ℤ) (hq : 0 < q) (strt half : ℕ) :
    ∀ cnt j wj a j2, j ≤ j2 → j2 < j + cnt → j + cnt ≤ half →
      strt + j2 + half < a.length →
      (0 ≤ (ctInner q wlen strt half j cnt wj a).getD (strt + j2) 0
        ∧ (ctInner q wlen strt half j cnt wj a).getD (strt + j2) 0 < q)
      ∧ (0 ≤ (ctInner q wlen strt half j cnt wj a).getD (strt + j2 + half) 0
        ∧ (ctInner q wlen strt half j cnt wj a).getD (strt + j2 + half) 0 < q) := by
  intro cnt
  induction cnt with
  | zero => intro j wj a j2 h1 h2; omega
  | succ cnt ih =>
    intro j wj a j2 h1 h2 h3 h4
    simp only [ctInner]
    by_cases hj : j2 = j
    · subst hj
      constructor
      · rw [ctInner_untouched q wlen strt half cnt (j2+1) _ _ (strt + j2)
          (fun j3 hj1 hj2 => ⟨by omega, by omega⟩)]
        rw [getD_set_ne _ _ _ _ _ (by omega), getD_set_self _ _ _ _ (by omega)]
        exact ⟨Int.emod_nonneg _ (by omega), Int.emod_lt_of_pos _ hq⟩
      · rw [ctInner_untouched q wlen strt half cnt (j2+1) _ _ (strt + j2 + half)
          (fun j3 hj1 hj2 => ⟨by omega, by omega⟩)]
        rw [getD_set_self _ _ _ _ (by rw [List.length_set]; omega)]
        exact ⟨Int.emod_nonneg _ (by omega), Int.emod_lt_of_pos _ hq⟩
    · exact ih (j+1) _ _ j2 (by omega) (by omega) (by omega)
        (by rw [List.length_set, List.length_set]; exact h4)

theorem ctBlocks_length (q wlen : ℤ) (len half : ℕ) :
    ∀ cnt strt a, (ctBlocks q wlen len half strt cnt a).length = a.length := by
  intro cnt
  induction cnt with
  | zero => intro strt a; rfl
  | succ cnt ih =>
    intro strt a
    simp only [ctBlocks]
    rw [ih, ctInner_length]

theorem ctBlocks_untouched (q wlen : ℤ) (len half : ℕ) (hl : half + half ≤ len) :
    ∀ cnt strt a t, (t < strt ∨ strt + cnt * len ≤ t) →
      (ctBlocks q wlen len half strt cnt a).getD t 0 = a.getD t 0 := by
  intro cnt
  induction cnt with
  | zero => intro strt a t _; rfl
  | succ cnt ih =>
    intro strt a t h
    have hmul : (cnt + 1) * len = len + cnt * len := by ring
    simp only [ctBlocks]
    rw [ih (strt + len) _ t (by omega)]
    exact ctInner_untouched q wlen strt half half 0 1 a t
      (fun j2 h1 h2 => ⟨by omega, by omega⟩)

theorem ctBlocks_range (q wlen : ℤ) (hq : 0 < q) (len half : ℕ) (hh : 0 < half)
    (hl : half + half = len) :
    ∀ cnt strt a t, strt ≤ t → t < strt + cnt * len → strt + cnt * len ≤ a.length →
      0 ≤ (ctBlocks q wlen len half strt cnt a).getD t 0
        ∧ (ctBlocks q wlen len half strt cnt a).getD t 0 < q := by
  intro cnt
  induction cnt with
  | zero => intro strt a t h1 h2; omega
  | succ cnt ih =>
    intro strt a t h1 h2 h3
    have hmul : (cnt + 1) * len = len + cnt * len := by ring
    simp only [ctBlocks]
    by_cases hb : t < strt + len
    · -- t lies in the first block, whose values the later blocks leave alone
      rw [ctBlocks_untouched q wlen len half (by omega) cnt (strt + len) _ t
        (Or.inl hb)]
      have hrange := ctInner_range q wlen hq strt half half 0 1 a
      by_cases hth : t < strt + half
      · have h5 := (hrange (t - strt) (Nat.zero_le _) (by omega) (by omega)
          (by omega)).1
        rw [show strt + (t - strt) = t by omega] at h5
        exact h5
      · have h5 := (hrange (t - strt - half) (Nat.zero_le _) (by omega) (by omega)
          (by omega)).2
        rw [show strt + (t - strt - half) + half = t by omega] at h5
        exact h5
    · exact ih (strt + len) _ t (by omega) (by omega)
        (by rw [ctInner_length]; omega)

theorem ctStage_length (Q : ℕ) (wlen : ℤ) (n len : ℕ) (a : List ℤ) :
    (ctStage (Q : ℤ) wlen n len a).length = a.length := by
  rw [← length_castL Q, castL_ctStage, ctStageR_length, length_castL]

theorem ctStage_range (Q : ℕ) (hQ : 0 < Q) (wlen : ℤ) (n len : ℕ) (h2 : 2 ≤ len)
    (he : len % 2 = 0) (hdvd : len ∣ n) (a : List ℤ) (ha : a.length = n)
    (i : ℕ) (hi : i < n) :
    0 ≤ (ctStage (Q : ℤ) wlen n len a).getD i 0
      ∧ (ctStage (Q : ℤ) wlen n len a).getD i 0 < (Q : ℤ) := by
  have hQz : (0 : ℤ) < (Q : ℤ) := by exact_mod_cast hQ
  unfold ctStage
  rw [stage_cnt_eq n len h2 hdvd]
  obtain ⟨k, hk⟩ := hdvd
  have hlpos : 0 < len := by omega
  have hnk : n / len = k := by rw [hk, Nat.mul_div_cancel_left _ hlpos]
  rw [hnk]
  have hkn : k * len = n := by rw [hk]; ring
  exact ctBlocks_range (Q : ℤ) wlen hQz len (len / 2) (by omega) (by omega) k 0 a i
    (Nat.zero_le _) (by omega) (by omega)

theorem ctStagesW_range (Q : ℕ) (hQ : 0 < Q) (ω : ℤ) (m : ℕ) :
    ∀ s t f a, 1 ≤ s → t + s = m → s < f → a.length = 2 ^ m →
      ∀ i, i < 2 ^ m →
        0 ≤ (ctStagesW (Q : ℤ) ω (2 ^ m) f (2 ^ (t + 1)) a).getD i 0
          ∧ (ctStagesW (Q : ℤ) ω (2 ^ m) f (2 ^ (t + 1)) a).getD i 0 < (Q : ℤ) := by
  intro s
  induction s with
  | zero => intro t f a h1; omega
  | succ s ih =>
    intro t f a h1 ht hf ha i hi
    match f, hf with
    | f'+1, _ =>
      simp only [ctStagesW]
      rw [if_pos (Nat.pow_le_pow_right (by norm_num) (by omega))]
      match s, h1 with
      | 0, _ =>
        -- the stage just performed had length 2^m and wrote every cell
        have htm : t + 1 = m := by omega
        have hstop : ¬ (2 ^ (t + 1) * 2 ≤ 2 ^ m) := by
          have h5 : (2 : ℕ) ^ (t + 1) * 2 = 2 ^ (t + 2) := by rw [← pow_succ]
          have h6 : (2 : ℕ) ^ m < 2 ^ (t + 2) := by
            exact Nat.pow_lt_pow_right (by norm_num) (by omega)
          omega
        have hrange := ctStage_range Q hQ (ω ^ (2 ^ m / 2 ^ (t + 1)) % (Q : ℤ))
          (2 ^ m) (2 ^ (t + 1)) (two_le_two_pow_succ t) (two_pow_succ_even t)
          (by rw [htm]) a ha i hi
        match f', hstop with
        | 0, _ => exact hrange
        | f''+1, hstop =>
          simp only [ctStagesW]
          rw [if_neg hstop]
          exact hrange
      | s'+1, _ =>
        exact ih (t + 1) f' _ (by omega) (by omega) (by omega)
          (by rw [ctStage_length Q, ha]) i hi

theorem ntt_range (m Q : ℕ) (hm : 1 ≤ m) (hQ : 0 < Q) (ω : ℤ) (x : List ℤ)
    (hx : x.length = 2 ^ m) (i : ℕ) (hi : i < 2 ^ m) :
    0 ≤ (ntt (2 ^ m) (Q : ℤ) ω x).getD i 0
      ∧ (ntt (2 ^ m) (Q : ℤ) ω x).getD i 0 < (Q : ℤ) := by
  show 0 ≤ (ctStagesW (Q : ℤ) ω (2 ^ m) (2 ^ m + 1) 2
      (bit_reverse_copy x (2 ^ m))).getD i 0 ∧ _
  have h := ctStagesW_range Q hQ ω m m 0 (2 ^ m + 1) (bit_reverse_copy x (2 ^ m))
    hm (by omega) (by have := Nat.lt_two_pow m; omega)
    (by rw [bit_reverse_copy_length, hx]) i hi
  simpa using h

end Tessera

namespace Tessera

/-! ### Congruence: the transforms depend on their input only mod q -/

theorem getD_zipWith (f : ℤ → ℤ → ℤ) :
    ∀ (a b : List ℤ) (i : ℕ), i < a.length → i < b.length →
      (List.zipWith f a b).getD i 0 = f (a.getD i 0) (b.getD i 0) := by
  intro a
  induction a with
  | nil => intro b i h1; simp at h1
  | cons x xs ih =>
    intro b i h1 h2
    match b with
    | [] => simp at h2
    | z :: zs =>
      cases i with
      | zero => simp [List.getD]
      | succ i =>
        simp only [List.zipWith_cons_cons, List.getD_cons_succ]
        exact ih zs i (by simpa using h1) (by simpa using h2)

theorem getD_map_emod (q : ℤ) (l : List ℤ) (i : ℕ) :
    (l.map (fun c => c % q)).getD i 0 = l.getD i 0 % q := by
  induction l generalizing i with
  | nil => simp [List.getD]
  | cons x xs ih =>
    cases i with
    | zero => simp [List.getD]
    | succ i =>
      simp only [List.map_cons, List.getD_cons_succ]
      exact ih i

theorem castL_reduce (Q : ℕ) (l : List ℤ) : castL Q (reduce (Q : ℤ) l) = castL Q l := by
  apply list_ext_getD _ _ (0 : ZMod Q)
  · rw [length_castL, length_castL]
    unfold reduce
    rw [List.length_map]
  · intro i _
    rw [getD_castL, getD_castL]
    unfold reduce
    rw [getD_map_emod, intCast_emod_zmod]

theorem length_eq_of_castL_eq (Q : ℕ) (l1 l2 : List ℤ) (h : castL Q l1 = castL Q l2) :
    l1.length = l2.length := by
  have := congrArg List.length h
  rwa [length_castL, length_castL] at this

theorem getD_cast_eq_of_castL_eq (Q : ℕ) (l1 l2 : List ℤ) (h : castL Q l1 = castL Q l2)
    (i : ℕ) : (Int.cast (l1.getD i 0) : ZMod Q) = Int.cast (l2.getD i 0) := by
  have h2 : (castL Q l1).getD i 0 = (castL Q l2).getD i 0 :=
    congrArg (fun l => List.getD l i (0 : ZMod Q)) h
  rw [getD_castL, getD_castL] at h2
  exact h2

theorem lists_eq_of_castL_eq_of_range (Q : ℕ) (hQ : 0 < Q) (n : ℕ) (l1 l2 : List ℤ)
    (hlen1 : l1.length = n) (hlen2 : l2.length = n)
    (hr1 : ∀ i, i < n → 0 ≤ l1.getD i 0 ∧ l1.getD i 0 < (Q : ℤ))
    (hr2 : ∀ i, i < n → 0 ≤ l2.getD i 0 ∧ l2.getD i 0 < (Q : ℤ))
    (hcast : castL Q l1 = castL Q l2) : l1 = l2 := by
  apply list_ext_getD _ _ (0 : ℤ) (by omega)
  intro i hi
  have hi2 : i < n := by omega
  exact int_eq_of_cast_eq Q _ _ (hr1 i hi2).1 (hr1 i hi2).2 (hr2 i hi2).1 (hr2 i hi2).2
    (getD_cast_eq_of_castL_eq Q l1 l2 hcast i)

theorem castL_brcLoop_congr (Q : ℕ) (bits : ℕ) (a a2 : List ℤ)
    (ha : castL Q a = castL Q a2) :
    ∀ cnt i r r2, castL Q r = castL Q r2 →
      castL Q (brcLoop bits a i cnt r) = castL Q (brcLoop bits a2 i cnt r2) := by
  intro cnt
  induction cnt with
  | zero => intro i r r2 hr; exact hr
  | succ cnt ih =>
    intro i r r2 hr
    simp only [brcLoop]
    apply ih (i+1)
    rw [castL_set, castL_set, hr]
    congr 1
    exact getD_cast_eq_of_castL_eq Q a a2 ha i

theorem castL_brc_congr (Q : ℕ) (n : ℕ) (x x2 : List ℤ)
    (h : castL Q x = castL Q x2) :
    castL Q (bit_reverse_copy x n) = castL Q (bit_reverse_copy x2 n) := by
  unfold bit_reverse_copy
  rw [length_eq_of_castL_eq Q x x2 h]
  exact castL_brcLoop_congr Q _ x x2 h n 0 _ _ rfl

theorem castL_scale (Q : ℕ) (c : ℤ) (l : List ℤ) :
    castL Q (l.map (fun t => t * c % (Q : ℤ)))
      = (castL Q l).map (fun t => t * Int.cast c) := by
  apply list_ext_getD _ _ (0 : ZMod Q)
  · rw [length_castL, List.length_map, List.length_map, length_castL]
  · intro i _
    rw [getD_castL, getD_map_mulmod, intCast_emod_zmod, Int.cast_mul]
    have h2 : ((castL Q l).map (fun t => t * Int.cast c)).getD i 0
        = (castL Q l).getD i 0 * Int.cast c := by
      have h3 := getD_map_mul (Int.cast c : ZMod Q) (castL Q l) i
      -- getD_map_mul is for (c * ·); adapt by commutativity of the mapped function
      rw [show (fun t => t * (Int.cast c : ZMod Q)) = (fun t => (Int.cast c : ZMod Q) * t)
        from funext (fun t => mul_comm _ _), h3, mul_comm]
    rw [h2, getD_castL]

theorem castL_ntt_congr (Q : ℕ) (ω : ℤ) (n : ℕ) (x x2 : List ℤ)
    (h : castL Q x = castL Q x2) :
    castL Q (ntt n (Q : ℤ) ω x) = castL Q (ntt n (Q : ℤ) ω x2) := by
  show castL Q (ctStagesW (Q : ℤ) ω n (n + 1) 2 (bit_reverse_copy x n))
    = castL Q (ctStagesW (Q : ℤ) ω n (n + 1) 2 (bit_reverse_copy x2 n))
  rw [castL_ctStagesW, castL_ctStagesW, castL_brc_congr Q n x x2 h]

theorem castL_inv_ntt_congr (Q : ℕ) (ω : ℤ) (n : ℕ) (y y2 : List ℤ)
    (h : castL Q y = castL Q y2) :
    castL Q (inv_ntt n (Q : ℤ) ω y) = castL Q (inv_ntt n (Q : ℤ) ω y2) := by
  show castL Q ((bit_reverse_copy (gsStagesW (Q : ℤ) (ω ^ ((Q : ℤ) - 2).toNat % (Q : ℤ))
      n (n + 1) n y) n).map
        (fun t => t * ((n : ℤ) ^ ((Q : ℤ) - 2).toNat % (Q : ℤ)) % (Q : ℤ)))
    = castL Q ((bit_reverse_copy (gsStagesW (Q : ℤ) (ω ^ ((Q : ℤ) - 2).toNat % (Q : ℤ))
      n (n + 1) n y2) n).map
        (fun t => t * ((n : ℤ) ^ ((Q : ℤ) - 2).toNat % (Q : ℤ)) % (Q : ℤ)))
  rw [castL_scale, castL_scale]
  congr 1
  apply castL_brc_congr
  rw [castL_gsStagesW, castL_gsStagesW, h]

theorem inv_ntt_range (Q : ℕ) (hQ : 0 < Q) (ω : ℤ) (n : ℕ) (y : List ℤ) (i : ℕ) :
    0 ≤ (inv_ntt n (Q : ℤ) ω y).getD i 0 ∧ (inv_ntt n (Q : ℤ) ω y).getD i 0 < (Q : ℤ) := by
  have hQz : (0 : ℤ) < (Q : ℤ) := by exact_mod_cast hQ
  have hre : inv_ntt n (Q : ℤ) ω y
      = (bit_reverse_copy (gsStagesW (Q : ℤ) (ω ^ ((Q : ℤ) - 2).toNat % (Q : ℤ))
          n (n + 1) n y) n).map
            (fun t => t * ((n : ℤ) ^ ((Q : ℤ) - 2).toNat % (Q : ℤ)) % (Q : ℤ)) := rfl
  rw [hre, getD_map_mulmod]
  exact ⟨Int.emod_nonneg _ (by omega), Int.emod_lt_of_pos _ hQz⟩

end Tessera

namespace Tessera

theorem ntt_reduce_eq (m Q : ℕ) (hm : 1 ≤ m) (hQ : 0 < Q) (ω : ℤ) (x : List ℤ)
    (hx : x.length = 2 ^ m) :
    ntt (2 ^ m) (Q : ℤ) ω x = ntt (2 ^ m) (Q : ℤ) ω (reduce (Q : ℤ) x) := by
  have hrx : (reduce (Q : ℤ) x).length = 2 ^ m := by
    unfold reduce
    rw [List.length_map, hx]
  apply lists_eq_of_castL_eq_of_range Q hQ (2 ^ m) _ _ (by rw [ntt_length, hx])
    (by rw [ntt_length, hrx]) (ntt_range m Q hm hQ ω x hx)
    (ntt_range m Q hm hQ ω _ hrx)
  exact castL_ntt_congr Q ω (2 ^ m) x _ (castL_reduce Q x).symm

theorem inv_ntt_reduce_eq (Q : ℕ) (hQ : 0 < Q) (ω : ℤ) (n : ℕ) (y : List ℤ) :
    inv_ntt n (Q : ℤ) ω y = inv_ntt n (Q : ℤ) ω (reduce (Q : ℤ) y) := by
  have hry : (reduce (Q : ℤ) y).length = y.length := by
    unfold reduce
    rw [List.length_map]
  apply lists_eq_of_castL_eq_of_range Q hQ y.length _ _ (by rw [inv_ntt_length])
    (by rw [inv_ntt_length, hry])
    (fun i _ => inv_ntt_range Q hQ ω n y i)
    (fun i _ => inv_ntt_range Q hQ ω n _ i)
  exact castL_inv_ntt_congr Q ω n y _ (castL_reduce Q y).symm

/-- C9: Each of `ntt`, `inv_ntt`, `point_mul`, `poly_mul`, `add`, `sub` and
`reduce`, applied to length-n integer vectors with arbitrary (possibly
unreduced or negative) entries, returns a length-n vector all of whose
entries lie in [0, q), and which is exactly the result the same operation
yields on the reduced inputs (hence congruent mod q to the mathematically
specified result on the reduced inputs).  Stated per operation as:
length preservation ∧ output range ∧ `op x = op (reduce x)`. -/
theorem C9_ops_length_range_reduce (m Q : ℕ) (hm : 1 ≤ m) (hQ : 0 < Q) (ω : ℤ)
    (x y : List ℤ) (hx : x.length = 2 ^ m) (hy : y.length = 2 ^ m) :
    ((reduce (Q : ℤ) x).length = 2 ^ m
      ∧ (∀ i, i < 2 ^ m → 0 ≤ (reduce (Q : ℤ) x).getD i 0
          ∧ (reduce (Q : ℤ) x).getD i 0 < (Q : ℤ))
      ∧ reduce (Q : ℤ) x = reduce (Q : ℤ) (reduce (Q : ℤ) x))
    ∧ ((add (Q : ℤ) x y).length = 2 ^ m
      ∧ (∀ i, i < 2 ^ m → 0 ≤ (add (Q : ℤ) x y).getD i 0
          ∧ (add (Q : ℤ) x y).getD i 0 < (Q : ℤ))
      ∧ add (Q : ℤ) x y = add (Q : ℤ) (reduce (Q : ℤ) x) (reduce (Q : ℤ) y))
    ∧ ((sub (Q : ℤ) x y).length = 2 ^ m
      ∧ (∀ i, i < 2 ^ m → 0 ≤ (sub (Q : ℤ) x y).getD i 0
          ∧ (sub (Q : ℤ) x y).getD i 0 < (Q : ℤ))
      ∧ sub (Q : ℤ) x y = sub (Q : ℤ) (reduce (Q : ℤ) x) (reduce (Q : ℤ) y))
    ∧ ((point_mul (Q : ℤ) x y).length = 2 ^ m
      ∧ (∀ i, i < 2 ^ m → 0 ≤ (point_mul (Q : ℤ) x y).getD i 0
          ∧ (point_mul (Q : ℤ) x y).getD i 0 < (Q : ℤ))
      ∧ point_mul (Q : ℤ) x y
          = point_mul (Q : ℤ) (reduce (Q : ℤ) x) (reduce (Q : ℤ) y))
    ∧ ((ntt (2 ^ m) (Q : ℤ) ω x).length = 2 ^ m
      ∧ (∀ i, i < 2 ^ m → 0 ≤ (ntt (2 ^ m) (Q : ℤ) ω x).getD i 0
          ∧ (ntt (2 ^ m) (Q : ℤ) ω x).getD i 0 < (Q : ℤ))
      ∧ ntt (2 ^ m) (Q : ℤ) ω x = ntt (2 ^ m) (Q : ℤ) ω (reduce (Q : ℤ) x))
    ∧ ((inv_ntt (2 ^ m) (Q : ℤ) ω x).length = 2 ^ m
      ∧ (∀ i, i < 2 ^ m → 0 ≤ (inv_ntt (2 ^ m) (Q : ℤ) ω x).getD i 0
          ∧ (inv_ntt (2 ^ m) (Q : ℤ) ω x).getD i 0 < (Q : ℤ))
      ∧ inv_ntt (2 ^ m) (Q : ℤ) ω x = inv_ntt (2 ^ m) (Q : ℤ) ω (reduce (Q : ℤ) x))
    ∧ ((poly_mul (2 ^ m) (Q : ℤ) ω x y).length = 2 ^ m
      ∧ (∀ i, i < 2 ^ m → 0 ≤ (poly_mul (2 ^ m) (Q : ℤ) ω x y).getD i 0
          ∧ (poly_mul (2 ^ m) (Q : ℤ) ω x y).getD i 0 < (Q : ℤ))
      ∧ poly_mul (2 ^ m) (Q : ℤ) ω x y
          = poly_mul (2 ^ m) (Q : ℤ) ω (reduce (Q : ℤ) x) (reduce (Q : ℤ) y)) := by
  have hQz : (0 : ℤ) < (Q : ℤ) := by exact_mod_cast hQ
  have hrx : (reduce (Q : ℤ) x).length = 2 ^ m := by
    unfold reduce
    rw [List.length_map, hx]
  have hry : (reduce (Q : ℤ) y).length = 2 ^ m := by
    unfold reduce
    rw [List.length_map, hy]
  refine ⟨⟨hrx, ?_, ?_⟩, ⟨?_, ?_, ?_⟩, ⟨?_, ?_, ?_⟩, ⟨?_, ?_, ?_⟩,
    ⟨by rw [ntt_length, hx], ntt_range m Q hm hQ ω x hx,
      ntt_reduce_eq m Q hm hQ ω x hx⟩,
    ⟨by rw [inv_ntt_length, hx], fun i _ => inv_ntt_range Q hQ ω (2 ^ m) x i,
      inv_ntt_reduce_eq Q hQ ω (2 ^ m) x⟩,
    ⟨?_, fun i _ => inv_ntt_range Q hQ ω (2 ^ m) _ i, ?_⟩⟩
  · intro i _
    unfold reduce
    rw [getD_map_emod]
    exact ⟨Int.emod_nonneg _ (by omega), Int.emod_lt_of_pos _ hQz⟩
  · unfold reduce
    rw [List.map_map]
    congr 1
    funext c
    simp only [Function.comp]
    exact (Int.emod_emod_of_dvd c dvd_rfl).symm
  · unfold add
    rw [List.length_zipWith, hx, hy, Nat.min_self]
  · intro i hi
    unfold add
    rw [getD_zipWith _ x y i (by omega) (by omega)]
    exact ⟨Int.emod_nonneg _ (by omega), Int.emod_lt_of_pos _ hQz⟩
  · apply list_ext_getD _ _ (0 : ℤ)
    · unfold add
      rw [List.length_zipWith, List.length_zipWith, hx, hy, hrx, hry]
    · intro i hi
      have hi2 : i < 2 ^ m := by
        unfold add at hi
        rw [List.length_zipWith, hx, hy, Nat.min_self] at hi
        exact hi
      unfold add
      rw [getD_zipWith _ x y i (by omega) (by omega),
          getD_zipWith _ _ _ i (by omega) (by omega)]
      unfold reduce
      rw [getD_map_emod, getD_map_emod]
      exact Int.add_emod _ _ _
  · unfold sub
    rw [List.length_zipWith, hx, hy, Nat.min_self]
  · intro i hi
    unfold sub
    rw [getD_zipWith _ x y i (by omega) (by omega)]
    exact ⟨Int.emod_nonneg _ (by omega), Int.emod_lt_of_pos _ hQz⟩
  · apply list_ext_getD _ _ (0 : ℤ)
    · unfold sub
      rw [List.length_zipWith, List.length_zipWith, hx, hy, hrx, hry]
    · intro i hi
      have hi2 : i < 2 ^ m := by
        unfold sub at hi
        rw [List.length_zipWith, hx, hy, Nat.min_self] at hi
        exact hi
      unfold sub
      rw [getD_zipWith _ x y i (by omega) (by omega),
          getD_zipWith _ _ _ i (by omega) (by omega)]
      unfold reduce
      rw [getD_map_emod, getD_map_emod]
      exact Int.sub_emod _ _ _
  · unfold point_mul
    rw [List.length_zipWith, hx, hy, Nat.min_self]
  · intro i hi
    unfold point_mul
    rw [getD_zipWith _ x y i (by omega) (by omega)]
    exact ⟨Int.emod_nonneg _ (by omega), Int.emod_lt_of_pos _ hQz⟩
  · apply list_ext_getD _ _ (0 : ℤ)
    · unfold point_mul
      rw [List.length_zipWith, List.length_zipWith, hx, hy, hrx, hry]
    · intro i hi
      have hi2 : i < 2 ^ m := by
        unfold point_mul at hi
        rw [List.length_zipWith, hx, hy, Nat.min_self] at hi
        exact hi
      unfold point_mul
      rw [getD_zipWith _ x y i (by omega) (by omega),
          getD_zipWith _ _ _ i (by omega) (by omega)]
      unfold reduce
      rw [getD_map_emod, getD_map_emod]
      exact Int.mul_emod _ _ _
  · show (inv_ntt (2 ^ m) (Q : ℤ) ω
      (point_mul (Q : ℤ) (ntt (2 ^ m) (Q : ℤ) ω x) (ntt (2 ^ m) (Q : ℤ) ω y))).length
        = 2 ^ m
    rw [inv_ntt_length]
    unfold point_mul
    rw [List.length_zipWith, ntt_length, ntt_length, hx, hy, Nat.min_self]
  · show inv_ntt (2 ^ m) (Q : ℤ) ω
      (point_mul (Q : ℤ) (ntt (2 ^ m) (Q : ℤ) ω x) (ntt (2 ^ m) (Q : ℤ) ω y))
        = inv_ntt (2 ^ m) (Q : ℤ) ω (point_mul (Q : ℤ)
            (ntt (2 ^ m) (Q : ℤ) ω (reduce (Q : ℤ) x))
            (ntt (2 ^ m) (Q : ℤ) ω (reduce (Q : ℤ) y)))
    rw [← ntt_reduce_eq m Q hm hQ ω x hx, ← ntt_reduce_eq m Q hm hQ ω y hy]

/-- Witness for C9: the ntt-equality component at a concrete small ring
(n = 4, q = 5, ω = 2) on unreduced inputs. -/
theorem C9_ops_length_range_reduce_witness :
    ntt (2 ^ 2) ((5 : ℕ) : ℤ) 2 [7, -3, 11, 4]
      = ntt (2 ^ 2) ((5 : ℕ) : ℤ) 2 (reduce ((5 : ℕ) : ℤ) [7, -3, 11, 4]) :=
  (C9_ops_length_range_reduce 2 5 (by norm_num) (by norm_num) 2
    [7, -3, 11, 4] [1, 2, 3, 4] (by decide) (by decide)).2.2.2.2.1.2.2

end Tessera

namespace Tessera

/-! ### C8: ring construction -/

theorem pow2_of_land_eq_zero : ∀ n, 0 < n → n &&& (n - 1) = 0 → ∃ k, n = 2 ^ k := by
  intro n
  induction n using Nat.strong_induction_on with
  | _ n ih =>
    intro hn hl
    rcases Nat.even_or_odd n with he | ho
    · obtain ⟨k, hk⟩ := he
      have hk2 : n = 2 * k := by omega
      have hkpos : 0 < k := by omega
      have hsub : n - 1 = 2 * (k - 1) + 1 := by omega
      have hland : k &&& (k - 1) = 0 := by
        apply Nat.eq_of_testBit_eq
        intro j
        rw [Nat.testBit_and, Nat.zero_testBit]
        have h5 := congrArg (fun t => t.testBit (j + 1)) hl
        simp only [Nat.testBit_and, Nat.zero_testBit] at h5
        rw [Nat.testBit_add_one, Nat.testBit_add_one] at h5
        rw [hk2] at h5
        rw [show 2 * k / 2 = k by omega, show (2 * k - 1) / 2 = k - 1 by omega] at h5
        exact h5
      obtain ⟨j, hj⟩ := ih k (by omega) hkpos hland
      exact ⟨j + 1, by rw [hk2, hj, pow_succ]; ring⟩
    · obtain ⟨k, hk⟩ := ho
      by_cases hk0 : k = 0
      · exact ⟨0, by omega⟩
      · exfalso
        obtain ⟨j, hj⟩ := Nat.ne_zero_implies_bit_true hk0
        have h5 := congrArg (fun t => t.testBit (j + 1)) hl
        simp only [Nat.testBit_and, Nat.zero_testBit] at h5
        rw [Nat.testBit_add_one, Nat.testBit_add_one] at h5
        rw [hk, show (2 * k + 1) / 2 = k by omega, show 2 * k + 1 - 1 = 2 * k by omega,
            show 2 * k / 2 = k by omega, hj] at h5
        simp at h5

theorem find_omega_loop_spec (n q exp : ℕ) :
    ∀ cnt g om, find_omega_loop n q exp g cnt = some om →
      ∃ g0, g ≤ g0 ∧ g0 < g + cnt ∧ om = g0 ^ exp % q
        ∧ (g0 ^ exp % q) ^ (n / 2) % q ≠ 1
        ∧ ∀ g', g ≤ g' → g' < g0 → (g' ^ exp % q) ^ (n / 2) % q = 1 := by
  intro cnt
  induction cnt with
  | zero => intro g om h; simp [find_omega_loop] at h
  | succ cnt ih =>
    intro g om h
    simp only [find_omega_loop] at h
    by_cases hc : (g ^ exp % q) ^ (n / 2) % q ≠ 1
    · rw [if_pos hc] at h
      injection h with h
      exact ⟨g, le_refl g, by omega, h.symm, h ▸ hc, fun g' h1 h2 => by omega⟩
    · rw [if_neg hc] at h
      push_neg at hc
      obtain ⟨g0, hg1, hg2, hg3, hg4, hg5⟩ := ih (g + 1) om h
      refine ⟨g0, by omega, by omega, hg3, hg4, fun g' h1 h2 => ?_⟩
      by_cases hgg : g' = g
      · subst hgg
        exact hc
      · exact hg5 g' (by omega) h2

/-- C8: Constructing `PolynomialRing(n, q)` fails whenever `n` is not a power
of two or `n` does not divide `q - 1`; and whenever construction succeeds the
resulting `omega` equals `g ^ ((q-1)/n) mod q` for the smallest `g ≥ 2` whose
candidate passes the `omega^(n/2) != 1 (mod q)` test (this also holds for the
hard-coded default `omega = 3061 = 3^13 mod 3329`, where `g = 2` fails the
test). -/
theorem C8_init_fails_or_first_root :
    (∀ n q : ℕ, ((¬ ∃ k, n = 2 ^ k) ∨ ¬ ((n : ℤ) ∣ ((q : ℤ) - 1))) →
      (PolynomialRing.init n q).isOk = false)
    ∧ (∀ n q : ℕ, ∀ r : PolynomialRing, PolynomialRing.init n q = .ok r →
        ∃ g0, 2 ≤ g0 ∧ g0 < q ∧ r.omega = g0 ^ ((q - 1) / n) % q
          ∧ (g0 ^ ((q - 1) / n) % q) ^ (n / 2) % q ≠ 1
          ∧ ∀ g', 2 ≤ g' → g' < g0 → (g' ^ ((q - 1) / n) % q) ^ (n / 2) % q = 1) := by
  constructor
  · intro n q h
    unfold PolynomialRing.init
    by_cases h1 : n &&& (n - 1) ≠ 0
    · rw [if_pos h1]
      rfl
    · rw [if_neg h1]
      push_neg at h1
      by_cases h2 : n = 256 ∧ q = 3329
      · exfalso
        obtain ⟨rfl, rfl⟩ := h2
        rcases h with h | h
        · exact h ⟨8, by norm_num⟩
        · exact h (by norm_num)
      · rw [if_neg h2]
        by_cases hn0 : n = 0
        · subst hn0
          rw [show find_omega 0 q
            = .error "ZeroDivisionError: integer division or modulo by zero" from rfl]
          rfl
        · have hpow : ∃ k, n = 2 ^ k := pow2_of_land_eq_zero n (by omega) h1
          have hnd : ¬ ((n : ℤ) ∣ ((q : ℤ) - 1)) := by
            rcases h with h | h
            · exact absurd hpow h
            · exact h
          have hmod : ((q : ℤ) - 1) % (n : ℤ) ≠ 0 := by
            intro hc
            exact hnd (Int.dvd_of_emod_eq_zero hc)
          unfold find_omega
          rw [if_neg hn0, if_pos hmod]
          rfl
  · intro n q r hr
    unfold PolynomialRing.init at hr
    by_cases h1 : n &&& (n - 1) ≠ 0
    · rw [if_pos h1] at hr
      exact absurd hr (by simp)
    · rw [if_neg h1] at hr
      by_cases h2 : n = 256 ∧ q = 3329
      · rw [if_pos h2] at hr
        obtain ⟨rfl, rfl⟩ := h2
        injection hr with hr
        refine ⟨3, by omega, by omega, ?_, ?_, ?_⟩
        · rw [← hr]
          norm_num
        · norm_num
        · intro g' hg1 hg2
          have hg : g' = 2 := by omega
          subst hg
          decide
      · rw [if_neg h2] at hr
        cases hfo : find_omega n q with
        | error e =>
          rw [hfo] at hr
          exact absurd hr (by simp [Except.map])
        | ok om =>
          rw [hfo] at hr
          simp only [Except.map] at hr
          injection hr with hr
          unfold find_omega at hfo
          by_cases hn0 : n = 0
          · rw [if_pos hn0] at hfo
            exact absurd hfo (by simp)
          · rw [if_neg hn0] at hfo
            by_cases hdv : ((q : ℤ) - 1) % (n : ℤ) ≠ 0
            · rw [if_pos hdv] at hfo
              exact absurd hfo (by simp)
            · rw [if_neg hdv] at hfo
              by_cases hq0 : q = 0
              · rw [if_pos hq0] at hfo
                exact absurd hfo (by simp)
              · rw [if_neg hq0] at hfo
                cases hloop : find_omega_loop n q ((q - 1) / n) 2 (q - 2) with
                | none =>
                  rw [hloop] at hfo
                  exact absurd hfo (by simp)
                | some om2 =>
                  rw [hloop] at hfo
                  injection hfo with hfo
                  subst hfo
                  obtain ⟨g0, hg1, hg2, hg3, hg4, hg5⟩ :=
                    find_omega_loop_spec n q ((q - 1) / n) (q - 2) 2 om2 hloop
                  refine ⟨g0, hg1, by omega, ?_, hg4, fun g' ha hb => hg5 g' ha hb⟩
                  rw [← hr, hg3]

/-- Witness for C8: the failure branch at `(n, q) = (4, 6)` (4 is a power of
two but does not divide 5) and the success branch at `(4, 5)` where the
search finds `omega = 2` with `g = 2`. -/
theorem C8_init_fails_or_first_root_witness :
    (PolynomialRing.init 4 6).isOk = false
    ∧ ∃ g0, 2 ≤ g0 ∧ g0 < 5 ∧ (PolynomialRing.mk 4 5 2).omega = g0 ^ ((5 - 1) / 4) % 5
      ∧ (g0 ^ ((5 - 1) / 4) % 5) ^ (4 / 2) % 5 ≠ 1
      ∧ ∀ g', 2 ≤ g' → g' < g0 → (g' ^ ((5 - 1) / 4) % 5) ^ (4 / 2) % 5 = 1 :=
  ⟨C8_init_fails_or_first_root.1 4 6 (Or.inr (by decide)),
   C8_init_fails_or_first_root.2 4 5 (PolynomialRing.mk 4 5 2) rfl⟩

end Tessera

namespace Tessera

/-! ### C5: NVM read/write semantics -/

theorem getD_append_length {α : Type} (l : List α) (x d : α) :
    (l ++ [x]).getD l.length d = x := by
  induction l with
  | nil => rfl
  | cons y ys ih => simpa using ih

/-- C5 counterexample: `read_checkpoint` returns the stored array object
itself.  Write the one-element array `[5]` (object 0) to address 0 — the
store holds a fresh copy, object 1 — then mutate the object returned by
`read_checkpoint` (object 1) in place.  A subsequent read sees `[7]`: the
stored value changed, so the array returned by read *does* expose mutable
aliasing to internal storage, refuting that conjunct of the claim. -/
theorem C5_read_alias_counterexample :
    (NonVolatileMemory.read_checkpoint
      (NonVolatileMemory.write_checkpoint ⟨[[5]], fun _ => none, []⟩ 0 0 0) 0 = some 1)
    ∧ ((NonVolatileMemory.write_checkpoint
        ⟨[[5]], fun _ => none, []⟩ 0 0 0).heap.getD 1 [] = [5])
    ∧ ((NonVolatileMemory.poke
        (NonVolatileMemory.write_checkpoint ⟨[[5]], fun _ => none, []⟩ 0 0 0) 1 0 7).heap.getD
          1 [] = [7])
    ∧ (NonVolatileMemory.read_checkpoint
        (NonVolatileMemory.poke
          (NonVolatileMemory.write_checkpoint ⟨[[5]], fun _ => none, []⟩ 0 0 0) 1 0 7) 0
        = some 1) := by
  refine ⟨rfl, rfl, rfl, rfl⟩

/-- C5 (amended): `read_checkpoint(addr)` returns exactly the object stored
by the last `write_checkpoint(addr, …)`, whose contents are a copy of the
written array taken at write time; the stored value is isolated from
subsequent caller mutation of the array that was passed to write; writes to
other addresses do not disturb it.  (The returned object itself aliases
internal storage — poking it rewrites the stored blob — as the
counterexample shows.) -/
theorem C5_write_read_isolation (m : NonVolatileMemory) (addr : ℤ) (dataId : ℕ)
    (t : ℕ) (hid : dataId < m.heap.length) :
    ((m.write_checkpoint addr dataId t).read_checkpoint addr = some m.heap.length)
    ∧ ((m.write_checkpoint addr dataId t).heap.getD m.heap.length []
        = m.heap.getD dataId [])
    ∧ (∀ i v, ((m.write_checkpoint addr dataId t).poke dataId i v).heap.getD
        m.heap.length [] = m.heap.getD dataId [])
    ∧ (∀ addr2 t2 did2, addr2 ≠ addr →
        ((m.write_checkpoint addr dataId t).write_checkpoint addr2 did2 t2).read_checkpoint
          addr = some m.heap.length) := by
  refine ⟨?_, ?_, ?_, ?_⟩
  · show (fun a => if a = addr then some m.heap.length else m.storage a) addr = _
    simp
  · show ((m.heap ++ [m.heap.getD dataId []]).getD m.heap.length []) = _
    exact getD_append_length _ _ _
  · intro i v
    show ((m.heap ++ [m.heap.getD dataId []]).set dataId
      (((m.heap ++ [m.heap.getD dataId []]).getD dataId []).set i v)).getD
        m.heap.length [] = _
    rw [getD_set_ne _ _ _ _ _ (by omega)]
    exact getD_append_length _ _ _
  · intro addr2 t2 did2 hne
    show (fun a => if a = addr2 then some (m.heap ++ [m.heap.getD dataId []]).length
      else (fun a2 => if a2 = addr then some m.heap.length else m.storage a2) a) addr
        = some m.heap.length
    simp only []
    rw [if_neg (fun hc => hne hc.symm)]
    simp

/-- Witness for C5 (amended) at a concrete one-blob memory. -/
theorem C5_write_read_isolation_witness :
    ((NonVolatileMemory.write_checkpoint ⟨[[5]], fun _ => none, []⟩ 0 0
      0).read_checkpoint 0 = some 1)
    ∧ ((NonVolatileMemory.write_checkpoint
        ⟨[[5]], fun _ => none, []⟩ 0 0 0).heap.getD 1 [] = [5])
    ∧ (∀ i v, ((NonVolatileMemory.write_checkpoint
        ⟨[[5]], fun _ => none, []⟩ 0 0 0).poke 0 i v).heap.getD 1 [] = [5])
    ∧ (∀ addr2 t2 did2, addr2 ≠ 0 →
        ((NonVolatileMemory.write_checkpoint ⟨[[5]], fun _ => none, []⟩ 0 0
          0).write_checkpoint addr2 did2 t2).read_checkpoint 0 = some 1) :=
  C5_write_read_isolation ⟨[[5]], fun _ => none, []⟩ 0 0 0 (by decide)

end Tessera

namespace Tessera

/-! ### C6/C7/C10 scheduler lemmas -/

theorem gatePart_freshInv (c : SchedCtx) (j : ℕ) (s : SchedState)
    (h : FreshInv c j s) : FreshInv c j (gatePart c j s) := by
  obtain ⟨hA, hB, hC, hD, hE, hF, hG⟩ := h
  unfold gatePart
  by_cases hpw : c.pw j = true
  · rw [if_pos hpw]
    exact ⟨hA, hB, hC, hD, hE, hF, hG⟩
  · rw [if_neg hpw]
    by_cases hj0 : 0 < j
    · rw [if_pos hj0]
      obtain ⟨did, hdid, hdlt, hdlen⟩ := hF (j - 1) (by omega)
      have hread : s.mem.read_checkpoint (DATA_BASE + (j : ℤ) - 1) = some did := by
        show s.mem.storage (DATA_BASE + (j : ℤ) - 1) = some did
        rw [show DATA_BASE + (j : ℤ) - 1 = DATA_BASE + ((j - 1 : ℕ) : ℤ) from by
          unfold DATA_BASE
          omega]
        exact hdid
      rw [hread]
      refine ⟨hA, hB, hC, hdlt, hdlen, hF, fun hj1 => ?_⟩
      obtain ⟨sid, hs1, hs2, hs3, hs4, hs5⟩ := hG hj1
      exact ⟨sid, hs1, hs2, hs3, fun hc => (hs5 (j - 1) (by omega) did hdid) hc.symm, hs5⟩
    · rw [if_neg hj0]
      exact ⟨hA, hB, hC, hD, hE, hF, hG⟩

theorem computePart_freshInv (c : SchedCtx) (j : ℕ) (lhw : ℕ × ℕ × ℤ) (s : SchedState)
    (h : FreshInv c j s) : FreshInv c j (computePart c lhw s) := by
  obtain ⟨hA, hB, hC, hD, hE, hF, hG⟩ := h
  unfold computePart
  refine ⟨hA, hB, hC, ?_, ?_, ?_, ?_⟩
  · simp only [List.length_set]
    exact hD
  · rw [getD_set_self _ _ _ _ hD, ctBlocks_length]
    exact hE
  · intro k hk
    obtain ⟨did, hdid, hdlt, hdlen⟩ := hF k hk
    refine ⟨did, hdid, by simpa [List.length_set] using hdlt, ?_⟩
    by_cases hdw : did = s.workingId
    · subst hdw
      rw [getD_set_self _ _ _ _ hdlt, ctBlocks_length]
      exact hE
    · rw [getD_set_ne _ _ _ _ _ (fun hc => hdw hc.symm)]
      exact hdlen
  · intro hj1
    obtain ⟨sid, hs1, hs2, hs3, hs4, hs5⟩ := hG hj1
    refine ⟨sid, hs1, by simpa [List.length_set] using hs2, ?_, hs4, hs5⟩
    rw [getD_set_ne _ _ _ _ _ (fun hc => hs4 hc.symm)]
    exact hs3

theorem write_heap_eq (m : NonVolatileMemory) (addr : ℤ) (did t : ℕ) :
    (m.write_checkpoint addr did t).heap = m.heap ++ [m.heap.getD did []] := rfl

theorem write_storage_self (m : NonVolatileMemory) (addr : ℤ) (did t : ℕ) :
    (m.write_checkpoint addr did t).storage addr = some m.heap.length := by
  show (if addr = addr then some m.heap.length else m.storage addr) = some m.heap.length
  rw [if_pos rfl]

theorem write_storage_other (m : NonVolatileMemory) (addr : ℤ) (did t : ℕ) (a : ℤ)
    (h : a ≠ addr) : (m.write_checkpoint addr did t).storage a = m.storage a := by
  show (if a = addr then some m.heap.length else m.storage a) = m.storage a
  rw [if_neg h]

theorem write_trace_len (m : NonVolatileMemory) (addr : ℤ) (did t : ℕ) :
    (m.write_checkpoint addr did t).leakage_trace.length = m.leakage_trace.length + 1 := by
  show (m.leakage_trace ++ [_]).length = m.leakage_trace.length + 1
  simp

/-- The checkpoint step written out: two heap allocations (the copied
working buffer and the fresh `[ℓ+1]` state blob), the state-blob copy taken
by the second write, the two storage updates and the two leakage samples. -/
theorem checkpointPart_eq (ℓ : ℕ) (s : SchedState) :
    checkpointPart ℓ s =
    { s with
      now := s.now + 5
      mem :=
        { heap := s.mem.heap ++ [s.mem.heap.getD s.workingId []] ++ [[(ℓ : ℤ) + 1]]
            ++ [(s.mem.heap ++ [s.mem.heap.getD s.workingId []] ++ [[(ℓ : ℤ) + 1]]).getD
                  (s.mem.heap ++ [s.mem.heap.getD s.workingId []]).length []]
          storage := fun a => if a = STATE_ADDR
              then some (s.mem.heap ++ [s.mem.heap.getD s.workingId []]
                ++ [[(ℓ : ℤ) + 1]]).length
              else if a = DATA_BASE + (ℓ : ℤ) then some s.mem.heap.length
              else s.mem.storage a
          leakage_trace := s.mem.leakage_trace
              ++ [(s.now + 5, hamming_weight_array (s.mem.heap.getD s.workingId []))]
              ++ [(s.now + 5, hamming_weight_array
                    ((s.mem.heap ++ [s.mem.heap.getD s.workingId []]
                      ++ [[(ℓ : ℤ) + 1]]).getD
                      (s.mem.heap ++ [s.mem.heap.getD s.workingId []]).length []))] }
      current_step := (ℓ : ℤ) + 1
      completed_layers := s.completed_layers + 1 } := rfl

theorem checkpointPart_freshInv (c : SchedCtx) (j : ℕ) (hj : j < 65535) (s : SchedState)
    (h : FreshInv c j s) : FreshInv c (j + 1) (checkpointPart j s) := by
  obtain ⟨hA, hB, hC, hD, hE, hF, hG⟩ := h
  have hY : (s.mem.heap ++ [s.mem.heap.getD s.workingId []] ++ [[(j : ℤ) + 1]]).getD
      (s.mem.heap ++ [s.mem.heap.getD s.workingId []]).length [] = [(j : ℤ) + 1] :=
    getD_append_length (s.mem.heap ++ [s.mem.heap.getD s.workingId []]) [(j : ℤ) + 1] []
  rw [checkpointPart_eq, hY]
  have l1 : s.workingId < (s.mem.heap ++ [s.mem.heap.getD s.workingId []]).length := by
    simp only [List.length_append, List.length_cons, List.length_nil]
    omega
  have l2 : s.workingId
      < (s.mem.heap ++ [s.mem.heap.getD s.workingId []] ++ [[(j : ℤ) + 1]]).length := by
    simp only [List.length_append, List.length_cons, List.length_nil]
    omega
  have q1 : s.mem.heap.length
      < (s.mem.heap ++ [s.mem.heap.getD s.workingId []]).length := by
    simp only [List.length_append, List.length_cons, List.length_nil]
    omega
  have q2 : s.mem.heap.length
      < (s.mem.heap ++ [s.mem.heap.getD s.workingId []] ++ [[(j : ℤ) + 1]]).length := by
    simp only [List.length_append, List.length_cons, List.length_nil]
    omega
  refine ⟨?_, ?_, ?_, ?_, ?_, ?_, ?_⟩
  · show (j : ℤ) + 1 = ((j + 1 : ℕ) : ℤ)
    omega
  · show s.completed_layers + 1 = j + 1
    omega
  · show (s.mem.leakage_trace
        ++ [(s.now + 5, hamming_weight_array (s.mem.heap.getD s.workingId []))]
        ++ [(s.now + 5, hamming_weight_array [(j : ℤ) + 1])]).length = 2 * (j + 1)
    simp only [List.length_append, List.length_cons, List.length_nil]
    omega
  · show s.workingId < (s.mem.heap ++ [s.mem.heap.getD s.workingId []]
        ++ [[(j : ℤ) + 1]] ++ [[(j : ℤ) + 1]]).length
    simp only [List.length_append, List.length_cons, List.length_nil]
    omega
  · show ((s.mem.heap ++ [s.mem.heap.getD s.workingId []] ++ [[(j : ℤ) + 1]]
        ++ [[(j : ℤ) + 1]]).getD s.workingId []).length = c.n
    rw [getD_append_left _ _ _ _ l2, getD_append_left _ _ _ _ l1,
      getD_append_left _ _ _ _ hD]
    exact hE
  · intro k hk
    by_cases hkj : k = j
    · refine ⟨s.mem.heap.length, ?_, ?_, ?_⟩
      · show (if DATA_BASE + (k : ℤ) = STATE_ADDR
            then some (s.mem.heap ++ [s.mem.heap.getD s.workingId []]
              ++ [[(j : ℤ) + 1]]).length
            else if DATA_BASE + (k : ℤ) = DATA_BASE + (j : ℤ)
            then some s.mem.heap.length
            else s.mem.storage (DATA_BASE + (k : ℤ))) = some s.mem.heap.length
        rw [if_neg (by unfold DATA_BASE STATE_ADDR; omega), if_pos (by rw [hkj])]
      · show s.mem.heap.length < (s.mem.heap ++ [s.mem.heap.getD s.workingId []]
            ++ [[(j : ℤ) + 1]] ++ [[(j : ℤ) + 1]]).length
        simp only [List.length_append, List.length_cons, List.length_nil]
        omega
      · show ((s.mem.heap ++ [s.mem.heap.getD s.workingId []] ++ [[(j : ℤ) + 1]]
            ++ [[(j : ℤ) + 1]]).getD s.mem.heap.length []).length = c.n
        rw [getD_append_left _ _ _ _ q2, getD_append_left _ _ _ _ q1,
          getD_append_length]
        exact hE
    · obtain ⟨did, hdid, hdlt, hdlen⟩ := hF k (by omega)
      have r1 : did < (s.mem.heap ++ [s.mem.heap.getD s.workingId []]).length := by
        simp only [List.length_append, List.length_cons, List.length_nil]
        omega
      have r2 : did < (s.mem.heap ++ [s.mem.heap.getD s.workingId []]
          ++ [[(j : ℤ) + 1]]).length := by
        simp only [List.length_append, List.length_cons, List.length_nil]
        omega
      refine ⟨did, ?_, ?_, ?_⟩
      · show (if DATA_BASE + (k : ℤ) = STATE_ADDR
            then some (s.mem.heap ++ [s.mem.heap.getD s.workingId []]
              ++ [[(j : ℤ) + 1]]).length
            else if DATA_BASE + (k : ℤ) = DATA_BASE + (j : ℤ)
            then some s.mem.heap.length
            else s.mem.storage (DATA_BASE + (k : ℤ))) = some did
        rw [if_neg (by unfold DATA_BASE STATE_ADDR; omega),
          if_neg (by unfold DATA_BASE; omega)]
        exact hdid
      · show did < (s.mem.heap ++ [s.mem.heap.getD s.workingId []]
            ++ [[(j : ℤ) + 1]] ++ [[(j : ℤ) + 1]]).length
        simp only [List.length_append, List.length_cons, List.length_nil]
        omega
      · show ((s.mem.heap ++ [s.mem.heap.getD s.workingId []] ++ [[(j : ℤ) + 1]]
            ++ [[(j : ℤ) + 1]]).getD did []).length = c.n
        rw [getD_append_left _ _ _ _ r2, getD_append_left _ _ _ _ r1,
          getD_append_left _ _ _ _ hdlt]
        exact hdlen
  · intro hj1
    refine ⟨(s.mem.heap ++ [s.mem.heap.getD s.workingId []]
        ++ [[(j : ℤ) + 1]]).length, ?_, ?_, ?_, ?_, ?_⟩
    · show (if STATE_ADDR = STATE_ADDR
          then some (s.mem.heap ++ [s.mem.heap.getD s.workingId []]
            ++ [[(j : ℤ) + 1]]).length
          else if STATE_ADDR = DATA_BASE + (j : ℤ) then some s.mem.heap.length
          else s.mem.storage STATE_ADDR)
          = some (s.mem.heap ++ [s.mem.heap.getD s.workingId []]
            ++ [[(j : ℤ) + 1]]).length
      rw [if_pos rfl]
    · show (s.mem.heap ++ [s.mem.heap.getD s.workingId []] ++ [[(j : ℤ) + 1]]).length
          < (s.mem.heap ++ [s.mem.heap.getD s.workingId []] ++ [[(j : ℤ) + 1]]
            ++ [[(j : ℤ) + 1]]).length
      simp only [List.length_append, List.length_cons, List.length_nil]
      omega
    · show (s.mem.heap ++ [s.mem.heap.getD s.workingId []] ++ [[(j : ℤ) + 1]]
          ++ [[(j : ℤ) + 1]]).getD
          (s.mem.heap ++ [s.mem.heap.getD s.workingId []] ++ [[(j : ℤ) + 1]]).length []
          = [((j + 1 : ℕ) : ℤ)]
      rw [getD_append_length]
      norm_cast
    · show (s.mem.heap ++ [s.mem.heap.getD s.workingId []] ++ [[(j : ℤ) + 1]]).length
          ≠ s.workingId
      simp only [List.length_append, List.length_cons, List.length_nil]
      omega
    · intro k hk did hdid
      have hdid2 : (if DATA_BASE + (k : ℤ) = STATE_ADDR
          then some (s.mem.heap ++ [s.mem.heap.getD s.workingId []]
            ++ [[(j : ℤ) + 1]]).length
          else if DATA_BASE + (k : ℤ) = DATA_BASE + (j : ℤ)
          then some s.mem.heap.length
          else s.mem.storage (DATA_BASE + (k : ℤ))) = some did := hdid
      rw [if_neg (by unfold DATA_BASE STATE_ADDR; omega)] at hdid2
      by_cases hkj : k = j
      · rw [if_pos (by rw [hkj])] at hdid2
        injection hdid2 with hh
        intro hcon
        rw [hcon] at hh
        simp only [List.length_append, List.length_cons, List.length_nil] at hh
        omega
      · rw [if_neg (by unfold DATA_BASE; omega)] at hdid2
        obtain ⟨did2, hdid3, hdlt2, hx⟩ := hF k (by omega)
        rw [hdid3] at hdid2
        injection hdid2 with hh
        intro hcon
        rw [hcon] at hh
        simp only [List.length_append, List.length_cons, List.length_nil] at hh
        omega

theorem layerStep_freshInv (c : SchedCtx) (j : ℕ) (hj : j < 65535) (lhw : ℕ × ℕ × ℤ)
    (s : SchedState) (h : FreshInv c j s) :
    FreshInv c (j + 1) (layerStep c (j, lhw) s) := by
  unfold layerStep
  rw [if_neg (by rw [h.1]; exact lt_irrefl _)]
  exact checkpointPart_freshInv c j hj _
    (computePart_freshInv c j lhw _ (gatePart_freshInv c j s h))

end Tessera

namespace Tessera

/-! ### Scheduler counter bounds (C7) -/

theorem startup_mem (s : SchedState) (inputId : ℕ) :
    (startup s inputId).2.mem = s.mem := by
  unfold startup
  split
  · rfl
  · simp only []
    split
    · rfl
    · rfl

theorem startup_restores_le (s : SchedState) (inputId : ℕ) :
    (startup s inputId).2.restores ≤ s.restores + 1 := by
  unfold startup
  split
  · exact Nat.le_succ _
  · simp only []
    split
    · exact Nat.le_succ _
    · exact Nat.le.refl

theorem startup_power_failures (s : SchedState) (inputId : ℕ) :
    (startup s inputId).2.power_failures = s.power_failures := by
  unfold startup
  split
  · rfl
  · simp only []
    split
    · rfl
    · rfl

theorem layerStep_pred (c : SchedCtx) (P : SchedState → Prop)
    (hgate : ∀ ℓ s, P s → P (gatePart c ℓ s))
    (hcomp : ∀ lhw s, P s → P (computePart c lhw s))
    (hckpt : ∀ ℓ s, P s → P (checkpointPart ℓ s))
    (p : ℕ × (ℕ × ℕ × ℤ)) (s : SchedState) (h : P s) : P (layerStep c p s) := by
  unfold layerStep
  by_cases hskip : ((p.1 : ℤ) < s.current_step)
  · rw [if_pos hskip]
    exact h
  · rw [if_neg hskip]
    exact hckpt p.1 _ (hcomp p.2 _ (hgate p.1 s h))

theorem foldl_layerStep_pred (c : SchedCtx) (P : SchedState → Prop)
    (hgate : ∀ ℓ s, P s → P (gatePart c ℓ s))
    (hcomp : ∀ lhw s, P s → P (computePart c lhw s))
    (hckpt : ∀ ℓ s, P s → P (checkpointPart ℓ s)) :
    ∀ (ps : List (ℕ × (ℕ × ℕ × ℤ))) (s : SchedState), P s →
      P (ps.foldl (fun st p => layerStep c p st) s) := by
  intro ps
  induction ps with
  | nil => intro s h; exact h
  | cons p rest ih =>
    intro s h
    exact ih _ (layerStep_pred c P hgate hcomp hckpt p s h)

theorem mem_layerStates_pred (c : SchedCtx) (P : SchedState → Prop)
    (hgate : ∀ ℓ s, P s → P (gatePart c ℓ s))
    (hcomp : ∀ lhw s, P s → P (computePart c lhw s))
    (hckpt : ∀ ℓ s, P s → P (checkpointPart ℓ s))
    (hwait : ∀ ℓ s, P s → P { s with power_failures := s.power_failures + 1,
                                     now := s.now + c.offT ℓ })
    (p : ℕ × (ℕ × ℕ × ℤ)) (s : SchedState) (h : P s) :
    ∀ x ∈ layerStates c p s, P x := by
  intro x hx
  unfold layerStates at hx
  by_cases hskip : ((p.1 : ℤ) < s.current_step)
  · rw [if_pos hskip] at hx
    exact absurd hx (List.not_mem_nil x)
  · rw [if_neg hskip] at hx
    simp only [] at hx
    rcases List.mem_append.mp hx with h1 | h2
    · by_cases hpw : c.pw p.1 = true
      · rw [if_pos hpw] at h1
        exact absurd h1 (List.not_mem_nil x)
      · rw [if_neg hpw] at h1
        have hx1 := List.mem_singleton.mp h1
        subst hx1
        exact hwait p.1 s h
    · rcases List.mem_cons.mp h2 with rfl | h3
      · exact hgate p.1 s h
      rcases List.mem_cons.mp h3 with rfl | h4
      · exact hcomp p.2 _ (hgate p.1 s h)
      rcases List.mem_cons.mp h4 with rfl | h5
      · exact hckpt p.1 _ (hcomp p.2 _ (hgate p.1 s h))
      · exact absurd h5 (List.not_mem_nil x)

theorem mem_scanStates_pred (c : SchedCtx) (P : SchedState → Prop)
    (hgate : ∀ ℓ s, P s → P (gatePart c ℓ s))
    (hcomp : ∀ lhw s, P s → P (computePart c lhw s))
    (hckpt : ∀ ℓ s, P s → P (checkpointPart ℓ s))
    (hwait : ∀ ℓ s, P s → P { s with power_failures := s.power_failures + 1,
                                     now := s.now + c.offT ℓ }) :
    ∀ (ps : List (ℕ × (ℕ × ℕ × ℤ))) (s : SchedState), P s →
      ∀ x ∈ scanStates c ps s, P x := by
  intro ps
  induction ps with
  | nil =>
    intro s h x hx
    exact absurd hx (List.not_mem_nil x)
  | cons p rest ih =>
    intro s h x hx
    rcases List.mem_append.mp hx with h1 | h2
    · exact mem_layerStates_pred c P hgate hcomp hckpt hwait p s h x h1
    · exact ih _ (layerStep_pred c P hgate hcomp hckpt p s h) x h2

theorem mem_allStates_pred (c : SchedCtx) (P : SchedState → Prop)
    (hgate : ∀ ℓ s, P s → P (gatePart c ℓ s))
    (hcomp : ∀ lhw s, P s → P (computePart c lhw s))
    (hckpt : ∀ ℓ s, P s → P (checkpointPart ℓ s))
    (hwait : ∀ ℓ s, P s → P { s with power_failures := s.power_failures + 1,
                                     now := s.now + c.offT ℓ })
    (inputId : ℕ) (s0 : SchedState)
    (h : P (allocWorking c.n (startup s0 inputId))) :
    ∀ x ∈ allStates c inputId s0, P x := by
  intro x hx
  unfold allStates at hx
  simp only [] at hx
  rcases List.mem_cons.mp hx with rfl | h2
  · exact h
  · exact mem_scanStates_pred c P hgate hcomp hckpt hwait _ _ h x h2

theorem getD_pred_of_mem {α : Type} (P : α → Prop) (l : List α) (d : α) (hd : P d)
    (hl : ∀ x ∈ l, P x) (k : ℕ) : P (l.getD k d) := by
  by_cases hk : k < l.length
  · rw [List.getD_eq_getElem l d hk]
    exact hl _ (List.getElem_mem hk)
  · rw [List.getD_eq_default l d (le_of_not_lt hk)]
    exact hd

theorem getD_pred_of_lt {α : Type} (P : α → Prop) (l : List α) (d : α)
    (hl : ∀ x ∈ l, P x) (k : ℕ) (hk : k < l.length) : P (l.getD k d) := by
  rw [List.getD_eq_getElem l d hk]
  exact hl _ (List.getElem_mem hk)

theorem gatePart_counterInv (c : SchedCtx) (ℓ : ℕ) (s : SchedState) (h : CounterInv s) :
    CounterInv (gatePart c ℓ s) := by
  unfold CounterInv at h ⊢
  unfold gatePart
  by_cases hpw : c.pw ℓ = true
  · rw [if_pos hpw]
    exact h
  · rw [if_neg hpw]
    by_cases h0 : 0 < ℓ
    · rw [if_pos h0]
      cases hre : s.mem.read_checkpoint (DATA_BASE + (ℓ : ℤ) - 1) with
      | none =>
        show s.restores ≤ s.power_failures + 1 + 1
        omega
      | some sid =>
        show s.restores + 1 ≤ s.power_failures + 1 + 1
        omega
    · rw [if_neg h0]
      show s.restores ≤ s.power_failures + 1 + 1
      omega

theorem computePart_counterInv (c : SchedCtx) (lhw : ℕ × ℕ × ℤ) (s : SchedState)
    (h : CounterInv s) : CounterInv (computePart c lhw s) := h

theorem checkpointPart_counterInv (ℓ : ℕ) (s : SchedState)
    (h : CounterInv s) : CounterInv (checkpointPart ℓ s) := h

theorem waitState_counterInv (c : SchedCtx) (ℓ : ℕ) (s : SchedState) (h : CounterInv s) :
    CounterInv { s with power_failures := s.power_failures + 1,
                        now := s.now + c.offT ℓ } := by
  unfold CounterInv at h ⊢
  show s.restores ≤ s.power_failures + 1 + 1
  omega

theorem start_counterInv (c : SchedCtx) (m : NonVolatileMemory) (inputId : ℕ) :
    CounterInv (allocWorking c.n (startup (initSched m) inputId)) := by
  unfold CounterInv
  show (startup (initSched m) inputId).2.restores
      ≤ (startup (initSched m) inputId).2.power_failures + 1
  rw [startup_power_failures]
  have h1 := startup_restores_le (initSched m) inputId
  have h2 : (initSched m).restores = 0 := rfl
  have h3 : (initSched m).power_failures = 0 := rfl
  omega

/-- C7: at every suspension point of `run_atomic_ntt` (every element of
`allStates`) and in the final state, under any power-failure schedule and any
starting NVM, `restores ≤ power_failures + 1`: the startup protocol performs
at most one restore, and every further restore (scheduler.py lines 121-133)
is paired with a `power_failures` increment. -/
theorem C7_restores_bound (c : SchedCtx) (m : NonVolatileMemory) (inputId k : ℕ) :
    ((run_atomic_ntt c inputId (initSched m)).restores
      ≤ (run_atomic_ntt c inputId (initSched m)).power_failures + 1)
    ∧ (((allStates c inputId (initSched m)).getD k defaultSchedState).restores
      ≤ ((allStates c inputId (initSched m)).getD k defaultSchedState).power_failures
          + 1) := by
  have hstart := start_counterInv c m inputId
  refine ⟨?_, ?_⟩
  · show CounterInv (run_atomic_ntt c inputId (initSched m))
    unfold run_atomic_ntt
    exact foldl_layerStep_pred c CounterInv (gatePart_counterInv c)
      (computePart_counterInv c) checkpointPart_counterInv _ _ hstart
  · show CounterInv ((allStates c inputId (initSched m)).getD k defaultSchedState)
    refine getD_pred_of_mem CounterInv _ defaultSchedState (Nat.le_succ 0) ?_ k
    exact mem_allStates_pred c CounterInv (gatePart_counterInv c)
      (computePart_counterInv c) checkpointPart_counterInv (waitState_counterInv c)
      inputId (initSched m) hstart

end Tessera

namespace Tessera

/-! ### The caller's array is never mutated (C10) -/

theorem gatePart_inputSafe (c : SchedCtx) (inputId : ℕ) (d : List ℤ) (ℓ : ℕ)
    (s : SchedState) (h : InputSafe inputId d s) :
    InputSafe inputId d (gatePart c ℓ s) := by
  obtain ⟨h1, h2, h3, h4⟩ := h
  unfold gatePart
  by_cases hpw : c.pw ℓ = true
  · rw [if_pos hpw]
    exact ⟨h1, h2, h3, h4⟩
  · rw [if_neg hpw]
    by_cases h0 : 0 < ℓ
    · rw [if_pos h0]
      cases hre : s.mem.read_checkpoint (DATA_BASE + (ℓ : ℤ) - 1) with
      | none => exact ⟨h1, h2, h3, h4⟩
      | some sid => exact ⟨h1, h2, h4 _ _ hre, h4⟩
    · rw [if_neg h0]
      exact ⟨h1, h2, h3, h4⟩

theorem computePart_inputSafe (c : SchedCtx) (inputId : ℕ) (d : List ℤ)
    (lhw : ℕ × ℕ × ℤ) (s : SchedState) (h : InputSafe inputId d s) :
    InputSafe inputId d (computePart c lhw s) := by
  obtain ⟨h1, h2, h3, h4⟩ := h
  refine ⟨?_, ?_, h3, h4⟩
  · show inputId < (s.mem.heap.set s.workingId _).length
    simpa [List.length_set] using h1
  · show (s.mem.heap.set s.workingId _).getD inputId [] = d
    rw [getD_set_ne _ _ _ _ _ h3]
    exact h2

theorem checkpointPart_inputSafe (inputId : ℕ) (d : List ℤ) (ℓ : ℕ) (s : SchedState)
    (h : InputSafe inputId d s) : InputSafe inputId d (checkpointPart ℓ s) := by
  obtain ⟨h1, h2, h3, h4⟩ := h
  rw [checkpointPart_eq]
  have l1 : inputId < (s.mem.heap ++ [s.mem.heap.getD s.workingId []]).length := by
    simp only [List.length_append, List.length_cons, List.length_nil]
    omega
  have l2 : inputId < (s.mem.heap ++ [s.mem.heap.getD s.workingId []]
      ++ [[(ℓ : ℤ) + 1]]).length := by
    simp only [List.length_append, List.length_cons, List.length_nil]
    omega
  refine ⟨?_, ?_, h3, ?_⟩
  · show inputId < (s.mem.heap ++ [s.mem.heap.getD s.workingId []] ++ [[(ℓ : ℤ) + 1]]
        ++ [_]).length
    simp only [List.length_append, List.length_cons, List.length_nil]
    omega
  · show (s.mem.heap ++ [s.mem.heap.getD s.workingId []] ++ [[(ℓ : ℤ) + 1]]
        ++ [_]).getD inputId [] = d
    rw [getD_append_left _ _ _ _ l2, getD_append_left _ _ _ _ l1,
      getD_append_left _ _ _ _ h1]
    exact h2
  · intro a did hdid
    have hdid2 : (if a = STATE_ADDR
        then some (s.mem.heap ++ [s.mem.heap.getD s.workingId []]
          ++ [[(ℓ : ℤ) + 1]]).length
        else if a = DATA_BASE + (ℓ : ℤ) then some s.mem.heap.length
        else s.mem.storage a) = some did := hdid
    by_cases ha1 : a = STATE_ADDR
    · rw [if_pos ha1] at hdid2
      injection hdid2 with hh
      intro hcon
      rw [hcon] at hh
      simp only [List.length_append, List.length_cons, List.length_nil] at hh
      omega
    · rw [if_neg ha1] at hdid2
      by_cases ha2 : a = DATA_BASE + (ℓ : ℤ)
      · rw [if_pos ha2] at hdid2
        injection hdid2 with hh
        intro hcon
        rw [hcon] at hh
        omega
      · rw [if_neg ha2] at hdid2
        exact h4 a did hdid2

theorem waitState_inputSafe (c : SchedCtx) (inputId : ℕ) (d : List ℤ) (ℓ : ℕ)
    (s : SchedState) (h : InputSafe inputId d s) :
    InputSafe inputId d { s with power_failures := s.power_failures + 1,
                                 now := s.now + c.offT ℓ } := h

/-- C10: the caller's array is never mutated by `run_atomic_ntt`: provided the
input object is a heap object none of the NVM storage cells point at (in the
Python code the NVM stores only its own copies), the input object's contents
are unchanged in the final state and at every suspension point.  The working
buffer is a fresh allocation (scheduler.py line 104) or an object from NVM
storage, and the in-place butterfly and checkpoint writes touch only those. -/
theorem C10_caller_array_not_mutated (c : SchedCtx) (m : NonVolatileMemory)
    (inputId : ℕ) (hin : inputId < m.heap.length)
    (hsto : ∀ a did, m.storage a = some did → did ≠ inputId) :
    ((run_atomic_ntt c inputId (initSched m)).mem.heap.getD inputId []
        = m.heap.getD inputId [])
    ∧ ∀ k, k < (allStates c inputId (initSched m)).length →
        ((allStates c inputId (initSched m)).getD k defaultSchedState).mem.heap.getD
          inputId [] = m.heap.getD inputId [] := by
  have hs1mem : (startup (initSched m) inputId).2.mem = m :=
    startup_mem (initSched m) inputId
  have halloc : InputSafe inputId (m.heap.getD inputId [])
      (allocWorking c.n (startup (initSched m) inputId)) := by
    refine ⟨?_, ?_, ?_, ?_⟩
    · show inputId < ((startup (initSched m) inputId).2.mem.heap ++ [_]).length
      rw [hs1mem]
      simp only [List.length_append, List.length_cons, List.length_nil]
      omega
    · show ((startup (initSched m) inputId).2.mem.heap ++ [_]).getD inputId []
          = m.heap.getD inputId []
      rw [hs1mem]
      exact getD_append_left _ _ _ _ hin
    · show (startup (initSched m) inputId).2.mem.heap.length ≠ inputId
      rw [hs1mem]
      omega
    · intro a did hdid
      have hdid2 : (startup (initSched m) inputId).2.mem.storage a = some did := hdid
      rw [hs1mem] at hdid2
      exact hsto a did hdid2
  constructor
  · have hfin : InputSafe inputId (m.heap.getD inputId [])
        (run_atomic_ntt c inputId (initSched m)) := by
      unfold run_atomic_ntt
      exact foldl_layerStep_pred c (InputSafe inputId (m.heap.getD inputId []))
        (fun ℓ s h => gatePart_inputSafe c inputId _ ℓ s h)
        (fun lhw s h => computePart_inputSafe c inputId _ lhw s h)
        (fun ℓ s h => checkpointPart_inputSafe inputId _ ℓ s h) _ _ halloc
    exact hfin.2.1
  · intro k hk
    have hall := mem_allStates_pred c (InputSafe inputId (m.heap.getD inputId []))
      (fun ℓ s h => gatePart_inputSafe c inputId _ ℓ s h)
      (fun lhw s h => computePart_inputSafe c inputId _ lhw s h)
      (fun ℓ s h => checkpointPart_inputSafe inputId _ ℓ s h)
      (fun ℓ s h => waitState_inputSafe c inputId _ ℓ s h)
      inputId (initSched m) halloc
    exact (getD_pred_of_lt (InputSafe inputId (m.heap.getD inputId []))
      (allStates c inputId (initSched m)) defaultSchedState hall k hk).2.1

/-- Witness for C10 at the ring `(n, q, ω) = (4, 5, 2)` on the input
`[0, 1, 2, 3]` (heap object 0) with an empty NVM store and full power:
the input object still holds `[0, 1, 2, 3]` finally and at suspension
point 3. -/
theorem C10_caller_array_not_mutated_witness :
    ((run_atomic_ntt ⟨4, 5, 2, fun _ => true, fun _ => 1⟩ 0
        (initSched ⟨[[0, 1, 2, 3]], fun _ => none, []⟩)).mem.heap.getD 0 []
        = [0, 1, 2, 3])
    ∧ (((allStates ⟨4, 5, 2, fun _ => true, fun _ => 1⟩ 0
        (initSched ⟨[[0, 1, 2, 3]], fun _ => none, []⟩)).getD 3
          defaultSchedState).mem.heap.getD 0 [] = [0, 1, 2, 3]) :=
  ⟨(C10_caller_array_not_mutated ⟨4, 5, 2, fun _ => true, fun _ => 1⟩
      ⟨[[0, 1, 2, 3]], fun _ => none, []⟩ 0 (by decide)
      (fun a did h => Option.noConfusion h)).1,
   (C10_caller_array_not_mutated ⟨4, 5, 2, fun _ => true, fun _ => 1⟩
      ⟨[[0, 1, 2, 3]], fun _ => none, []⟩ 0 (by decide)
      (fun a did h => Option.noConfusion h)).2 3 (by decide)⟩

end Tessera

namespace Tessera

/-! ### Completion statistics of a fresh run (C6) -/

theorem foldl_enumFrom_freshInv (c : SchedCtx) (ps : List (ℕ × ℕ × ℤ)) :
    ∀ (j0 : ℕ) (s : SchedState), j0 + ps.length ≤ 65535 → FreshInv c j0 s →
      FreshInv c (j0 + ps.length)
        ((List.enumFrom j0 ps).foldl (fun st p => layerStep c p st) s) := by
  induction ps with
  | nil =>
    intro j0 s _ h
    simpa using h
  | cons x xs ih =>
    intro j0 s hb h
    simp only [List.length_cons] at hb
    show FreshInv c (j0 + (xs.length + 1))
      ((List.enumFrom (j0 + 1) xs).foldl (fun st p => layerStep c p st)
        (layerStep c (j0, x) s))
    rw [show j0 + (xs.length + 1) = (j0 + 1) + xs.length from by omega]
    exact ih (j0 + 1) _ (by omega) (layerStep_freshInv c j0 (by omega) x s h)

theorem fresh_start_freshInv (c : SchedCtx) (m : NonVolatileMemory) (inputId : ℕ)
    (hstore : ∀ a, m.storage a = none) (htrace : m.leakage_trace = [])
    (hin : inputId < m.heap.length) (hlen : (m.heap.getD inputId []).length = c.n) :
    FreshInv c 0 (allocWorking c.n (startup (initSched m) inputId)) := by
  have h0 : startup (initSched m) inputId = (inputId, initSched m) := by
    unfold startup
    rw [show (initSched m).mem.read_checkpoint STATE_ADDR = none from
      hstore STATE_ADDR]
  rw [h0]
  refine ⟨?_, rfl, ?_, ?_, ?_, ?_, ?_⟩
  · show (0 : ℤ) = ((0 : ℕ) : ℤ)
    simp
  · show m.leakage_trace.length = 2 * 0
    rw [htrace]
    rfl
  · show m.heap.length < (m.heap ++ [_]).length
    simp only [List.length_append, List.length_cons, List.length_nil]
    omega
  · show ((m.heap ++ [bit_reverse_copy (m.heap.getD inputId []) c.n]).getD
        m.heap.length []).length = c.n
    rw [getD_append_length, bit_reverse_copy_length, hlen]
  · intro k hk
    exact absurd hk (Nat.not_lt_zero k)
  · intro h1
    exact absurd h1 (by omega)

/-- C6 (amended): for a run of `run_atomic_ntt` that starts from an NVM whose
storage is empty (no prior checkpoint) — under ANY power-failure schedule —
the run completes all `L` layers: `completed_layers = L`, `current_step = L`,
exactly `2 L` NVM writes occur (one leakage sample per write: `L` data
checkpoints plus `L` state checkpoints), every data slot `DATA_BASE + k`
(`k < L`) holds a length-`n` blob, and `STATE_ADDR` holds the one-element
array `[L]`.  At the default ring (`n = 256`), `L = 8` and the write count
is 16 (see the witness).  The original claim's unconditional
`completed_layers == L` fails for runs resumed from a preloaded checkpoint,
which skip the restored layers (see the counterexample). -/
theorem C6_fresh_run_stats (c : SchedCtx) (m : NonVolatileMemory) (inputId L : ℕ)
    (hL : (layersW c.q c.ω c.n (c.n + 1) 2).length = L)
    (hL1 : 1 ≤ L) (hL2 : L ≤ 65535)
    (hstore : ∀ a, m.storage a = none) (htrace : m.leakage_trace = [])
    (hin : inputId < m.heap.length) (hlen : (m.heap.getD inputId []).length = c.n) :
    (run_atomic_ntt c inputId (initSched m)).completed_layers = L
    ∧ (run_atomic_ntt c inputId (initSched m)).current_step = (L : ℤ)
    ∧ (run_atomic_ntt c inputId (initSched m)).mem.leakage_trace.length = 2 * L
    ∧ (∀ k, k < L → ∃ did,
        (run_atomic_ntt c inputId (initSched m)).mem.storage (DATA_BASE + (k : ℤ))
          = some did
        ∧ ((run_atomic_ntt c inputId (initSched m)).mem.heap.getD did []).length
          = c.n)
    ∧ ∃ sid, (run_atomic_ntt c inputId (initSched m)).mem.storage STATE_ADDR
        = some sid
      ∧ (run_atomic_ntt c inputId (initSched m)).mem.heap.getD sid [] = [(L : ℤ)] := by
  have hfresh := fresh_start_freshInv c m inputId hstore htrace hin hlen
  have hinv : FreshInv c L (run_atomic_ntt c inputId (initSched m)) := by
    have h2 := foldl_enumFrom_freshInv c (layersW c.q c.ω c.n (c.n + 1) 2) 0
      (allocWorking c.n (startup (initSched m) inputId)) (by omega) hfresh
    rw [hL] at h2
    rw [show (0 : ℕ) + L = L from by omega] at h2
    unfold run_atomic_ntt
    exact h2
  obtain ⟨hA, hB, hC, hD, hE, hF, hG⟩ := hinv
  obtain ⟨sid, hg1, hg2, hg3, hg4, hg5⟩ := hG hL1
  refine ⟨hB, hA, hC, ?_, sid, hg1, hg3⟩
  intro k hk
  obtain ⟨did, hf1, hf2, hf3⟩ := hF k hk
  exact ⟨did, hf1, hf3⟩

/-- Witness for C6 (amended) at the default ring `(n, q) = (256, 3329)`,
`ω = 3061`: a fresh uninterrupted run on the zero polynomial completes all
`L = 8` layers with 16 NVM writes, a length-256 blob in slot
`DATA_BASE + 7`, and `[8]` at `STATE_ADDR`. -/
theorem C6_fresh_run_stats_witness :
    (run_atomic_ntt ⟨256, 3329, 3061, fun _ => true, fun _ => 0⟩ 0
        (initSched ⟨[List.replicate 256 0], fun _ => none, []⟩)).completed_layers = 8
    ∧ (run_atomic_ntt ⟨256, 3329, 3061, fun _ => true, fun _ => 0⟩ 0
        (initSched ⟨[List.replicate 256 0], fun _ => none, []⟩)).current_step = (8 : ℤ)
    ∧ (run_atomic_ntt ⟨256, 3329, 3061, fun _ => true, fun _ => 0⟩ 0
        (initSched ⟨[List.replicate 256 0], fun _ => none,
          []⟩)).mem.leakage_trace.length = 16
    ∧ (∃ did, (run_atomic_ntt ⟨256, 3329, 3061, fun _ => true, fun _ => 0⟩ 0
        (initSched ⟨[List.replicate 256 0], fun _ => none, []⟩)).mem.storage
          (DATA_BASE + 7) = some did
        ∧ ((run_atomic_ntt ⟨256, 3329, 3061, fun _ => true, fun _ => 0⟩ 0
            (initSched ⟨[List.replicate 256 0], fun _ => none,
              []⟩)).mem.heap.getD did []).length = 256)
    ∧ ∃ sid, (run_atomic_ntt ⟨256, 3329, 3061, fun _ => true, fun _ => 0⟩ 0
        (initSched ⟨[List.replicate 256 0], fun _ => none, []⟩)).mem.storage
          STATE_ADDR = some sid
      ∧ (run_atomic_ntt ⟨256, 3329, 3061, fun _ => true, fun _ => 0⟩ 0
          (initSched ⟨[List.replicate 256 0], fun _ => none,
            []⟩)).mem.heap.getD sid [] = [(8 : ℤ)] := by
  have h := C6_fresh_run_stats ⟨256, 3329, 3061, fun _ => true, fun _ => 0⟩
    ⟨[List.replicate 256 0], fun _ => none, []⟩ 0 8
    (by decide) (by omega) (by omega) (fun a => rfl) rfl (by decide)
    (by rw [show ([List.replicate 256 0] : List (List ℤ)).getD 0 []
          = List.replicate 256 0 from rfl, List.length_replicate])
  exact ⟨h.1, h.2.1, h.2.2.1, h.2.2.2.1 7 (by omega), h.2.2.2.2⟩

/-- C6 counterexample: a run resumed from a preloaded checkpoint
(`STATE_ADDR` holding `[1]`, slot 0 holding a blob) runs to completion but
skips the already-done layer, so `completed_layers = 1` while the layer
count `L` is 2 (ring `n = 4`, `q = 5`, `ω = 2`): `completed_layers == L`
does not hold for every completed run. -/
theorem C6_resumed_run_counterexample :
    (run_atomic_ntt ⟨4, 5, 2, fun _ => true, fun _ => 1⟩ 0 (initSched
      ⟨[[0, 1, 2, 3], [1], [3, 2, 3, 4]],
       fun a => if a = STATE_ADDR then some 1
         else if a = DATA_BASE + 0 then some 2 else none,
       []⟩)).completed_layers = 1
    ∧ (layersW 5 2 4 (4 + 1) 2).length = 2
    ∧ (1 : ℕ) ≠ 2 := by
  refine ⟨by decide, by decide, by decide⟩

end Tessera

namespace Tessera

/-! ### Concrete scheduler traces exhibiting the checkpoint bugs (C2-C4) -/

/-- C2: the checkpoint invariant is violated.  Fresh run at the ring
`(n, q, ω) = (4, 5, 2)` on `[0, 1, 2, 3]`, power on at layer 0 and off at
layer 1.  At suspension point 6 of `allStates` (after layer 1's gate reloads
the slot-0 object — `working = saved` aliases NVM storage — and the in-place
butterfly runs), `current_step = 1` and `STATE_ADDR` holds `[1]` (object 4),
but `DATA_BASE + 0` (object 2) holds `[1, 4, 3, 2]`, not the correct
post-layer-0 buffer `[2, 3, 4, 3]` (the layer-0 butterfly of the
bit-reversed input): the aliased in-place mutation corrupted the stored
checkpoint. -/
theorem C2_checkpoint_invariant_violated :
    ((allStates ⟨4, 5, 2, fun ℓ => ℓ == 0, fun _ => 1⟩ 0
        (initSched ⟨[[0, 1, 2, 3]], fun _ => none, []⟩)).getD 6
          defaultSchedState).current_step = 1
    ∧ ((allStates ⟨4, 5, 2, fun ℓ => ℓ == 0, fun _ => 1⟩ 0
        (initSched ⟨[[0, 1, 2, 3]], fun _ => none, []⟩)).getD 6
          defaultSchedState).mem.storage STATE_ADDR = some 4
    ∧ ((allStates ⟨4, 5, 2, fun ℓ => ℓ == 0, fun _ => 1⟩ 0
        (initSched ⟨[[0, 1, 2, 3]], fun _ => none, []⟩)).getD 6
          defaultSchedState).mem.heap.getD 4 [] = [1]
    ∧ ((allStates ⟨4, 5, 2, fun ℓ => ℓ == 0, fun _ => 1⟩ 0
        (initSched ⟨[[0, 1, 2, 3]], fun _ => none, []⟩)).getD 6
          defaultSchedState).mem.storage (DATA_BASE + 0) = some 2
    ∧ ((allStates ⟨4, 5, 2, fun ℓ => ℓ == 0, fun _ => 1⟩ 0
        (initSched ⟨[[0, 1, 2, 3]], fun _ => none, []⟩)).getD 6
          defaultSchedState).mem.heap.getD 2 [] = [1, 4, 3, 2]
    ∧ ctBlocks 5 4 2 1 0 2 (bit_reverse_copy [0, 1, 2, 3] 4) = [2, 3, 4, 3]
    ∧ ([1, 4, 3, 2] : List ℤ) ≠ [2, 3, 4, 3] := by
  refine ⟨by decide, by decide, by decide, by decide, by decide, by decide, by decide⟩

/-- C3: a corrupt checkpoint is NOT treated as fatal.  At the ring
`(4, 5, 2)`, start `run_atomic_ntt` on an NVM where `STATE_ADDR` holds the
non-zero counter `[1]` but `DATA_BASE + 0` is absent.  The startup protocol
sets `current_step = 1`, finds no data blob, and silently falls through: no
restore happens, layer 0 is skipped, layer 1 runs on the bit-reversed raw
input, and the run completes with `completed_layers = 1` and `STATE_ADDR`
advanced to `[2]` — the scheduler neither reports an error nor stops. -/
theorem C3_corrupt_checkpoint_silently_continues :
    ((initSched ⟨[[0, 1, 2, 3], [1]],
        fun a => if a = STATE_ADDR then some 1 else none,
        []⟩).mem.read_checkpoint STATE_ADDR = some 1)
    ∧ ((initSched ⟨[[0, 1, 2, 3], [1]],
        fun a => if a = STATE_ADDR then some 1 else none,
        []⟩).mem.heap.getD 1 [] = [1])
    ∧ ((initSched ⟨[[0, 1, 2, 3], [1]],
        fun a => if a = STATE_ADDR then some 1 else none,
        []⟩).mem.read_checkpoint (DATA_BASE + 1 - 1) = none)
    ∧ (run_atomic_ntt ⟨4, 5, 2, fun _ => true, fun _ => 1⟩ 0
        (initSched ⟨[[0, 1, 2, 3], [1]],
          fun a => if a = STATE_ADDR then some 1 else none,
          []⟩)).completed_layers = 1
    ∧ (run_atomic_ntt ⟨4, 5, 2, fun _ => true, fun _ => 1⟩ 0
        (initSched ⟨[[0, 1, 2, 3], [1]],
          fun a => if a = STATE_ADDR then some 1 else none,
          []⟩)).restores = 0
    ∧ (run_atomic_ntt ⟨4, 5, 2, fun _ => true, fun _ => 1⟩ 0
        (initSched ⟨[[0, 1, 2, 3], [1]],
          fun a => if a = STATE_ADDR then some 1 else none,
          []⟩)).current_step = 2
    ∧ (run_atomic_ntt ⟨4, 5, 2, fun _ => true, fun _ => 1⟩ 0
        (initSched ⟨[[0, 1, 2, 3], [1]],
          fun a => if a = STATE_ADDR then some 1 else none,
          []⟩)).mem.storage STATE_ADDR = some 5
    ∧ (run_atomic_ntt ⟨4, 5, 2, fun _ => true, fun _ => 1⟩ 0
        (initSched ⟨[[0, 1, 2, 3], [1]],
          fun a => if a = STATE_ADDR then some 1 else none,
          []⟩)).mem.heap.getD 5 [] = [2] := by
  refine ⟨by decide, by decide, by decide, by decide, by decide, by decide,
    by decide, by decide⟩

/-- C4: a restored checkpoint blob is NOT adopted as-is.  At the ring
`(4, 5, 2)`, preload `STATE_ADDR` with `[1]` and `DATA_BASE + 0` with the
blob `[3, 2, 3, 4]` (object 2).  Startup restores the blob
(`restores = 1`), but line 104 unconditionally bit-reverse-copies it, so
the working buffer (object 3) is `[3, 3, 2, 4]` — the bit-reversal
permutation of the restored intermediate state, not the state itself. -/
theorem C4_restored_blob_bit_reversed_again :
    ((allocWorking 4 (startup (initSched
        ⟨[[0, 1, 2, 3], [1], [3, 2, 3, 4]],
         fun a => if a = STATE_ADDR then some 1
           else if a = DATA_BASE + 0 then some 2 else none,
         []⟩) 0)).restores = 1)
    ∧ (allocWorking 4 (startup (initSched
        ⟨[[0, 1, 2, 3], [1], [3, 2, 3, 4]],
         fun a => if a = STATE_ADDR then some 1
           else if a = DATA_BASE + 0 then some 2 else none,
         []⟩) 0)).workingId = 3
    ∧ (allocWorking 4 (startup (initSched
        ⟨[[0, 1, 2, 3], [1], [3, 2, 3, 4]],
         fun a => if a = STATE_ADDR then some 1
           else if a = DATA_BASE + 0 then some 2 else none,
         []⟩) 0)).mem.heap.getD 3 [] = bit_reverse_copy [3, 2, 3, 4] 4
    ∧ bit_reverse_copy [3, 2, 3, 4] 4 = [3, 3, 2, 4]
    ∧ ([3, 3, 2, 4] : List ℤ) ≠ [3, 2, 3, 4] := by
  refine ⟨by decide, by decide, by decide, by decide, by decide⟩

end Tessera
